import Mathlib

/-!
Stepper-motor controller firmware (`main.c`, PIC18F2550 driving an A4988)

A shallow embedding of `src/main.c`.  The C globals, the output pins, the
timer registers and the EEPROM become fields of one `State` record; every C
function becomes a function on that record.

Machine integers are natural numbers reduced explicitly:
`uint8_t` (`unsigned short` of the compiler, 8 bit) modulo `2^8`,
`uint16_t` (`unsigned int`, 16 bit) modulo `2^16`,
`uint32_t` (`unsigned long`, 32 bit) modulo `2^32`.

The input pin `SWITCH` is read from a list of samples: every evaluation of
`SWITCH` in the C text consumes the head of the list.  A busy-wait loop that
runs through all the samples without seeing the level it waits for yields
`none`.

The busy-wait delays `Delay_us`, `Delay_ms`, `delay_ms` change no variable and
are not represented.  The one-time configuration writes at the start of
`main` (`ADCON1`, the `TRIS` bits, `T0CON`/`T1CON` mode bits, `RCON.IPEN`,
`PIE1`, `IPR1`, `INTCON.TMR0IE`, `INTCON.GIEL`) are never read back by the
program and are not represented either.

Two ghost fields record what the program emits: `stepPulses` counts the
rising edges written to `STEP`, `eeWrites` lists the calls of `EEPROM_Write`.
-/

namespace StepMotor

/-! ## Constants (`#define`s, lines 45-48) -/

def STEP_DIVISOR : Nat := 16
def MAX_SPEED : Nat := 400
def MIN_SPEED : Nat := 50
def DELAY_STEP : Nat := 300

/-! ## State -/

/-- The globals of `main.c` (lines 57-74), the pins and special-function
registers the program writes, the EEPROM, and two ghost counters. -/
structure State where
  -- globals
  wait : Nat
  direction : Nat
  delayCounter : Nat
  delayValue : Nat
  delayCounterMax : Nat
  stepCounter : Nat
  stepStart : Nat
  stepCounterMax : Nat
  subStepCounter : Nat
  speed : Nat
  writeDelayValue : Int
  clock : Nat
  stepIncrement : Int
  switchLatch : Nat
  buttonClickCounter : Int
  buttonClickDelay : Nat
  -- output pins
  N_EN : Bool
  MS1 : Bool
  MS2 : Bool
  MS3 : Bool
  N_RST : Bool
  N_SLP : Bool
  STEP : Bool
  DIR : Bool
  -- special-function registers
  TMR0H : Nat
  TMR0L : Nat
  TMR1H : Nat
  TMR1L : Nat
  TMR0IF : Bool
  TMR1IF : Bool
  TMR0ON : Bool
  GIE : Bool
  -- non-volatile store, one byte per address
  eeprom : Nat → Nat
  -- ghost: number of rising edges on STEP, log of EEPROM_Write calls
  stepPulses : Nat
  eeWrites : List (Nat × Nat)

/-- Value of a one-bit pin when it is read in an integer expression. -/
def bitVal (b : Bool) : Nat := if b then 1 else 0

/-- The globals with their initialisers (lines 57-74) at reset; the pins and
registers are given the reset values on the right, `ee` is the content of the
EEPROM. -/
def resetState (ee : Nat → Nat) : State where
  wait := 0
  direction := 0
  delayCounter := 0
  delayValue := 0
  delayCounterMax := 0
  stepCounter := 0
  stepStart := 0
  stepCounterMax := 0
  subStepCounter := 0
  speed := 80
  writeDelayValue := 0
  clock := 0
  stepIncrement := 1
  switchLatch := 0
  buttonClickCounter := 0
  buttonClickDelay := 0
  N_EN := false
  MS1 := false
  MS2 := false
  MS3 := false
  N_RST := false
  N_SLP := false
  STEP := false
  DIR := false
  TMR0H := 0
  TMR0L := 0
  TMR1H := 0
  TMR1L := 0
  TMR0IF := false
  TMR1IF := false
  TMR0ON := false
  GIE := false
  eeprom := ee
  stepPulses := 0
  eeWrites := []

/-! ## External collaborators: the EEPROM library -/

/-- Modelled from the spec: the compiler library routine `EEPROM_Read` is not
part of the source; the spec gives `readByte(address) -> byte`.  The result is
the byte stored at the address. -/
def EEPROM_Read (addr : Nat) (s : State) : Nat := s.eeprom addr % 256

/-- Modelled from the spec: the compiler library routine `EEPROM_Write` is not
part of the source; the spec gives `writeByte(address, byte)`.  The data
argument is one byte wide, so a wider argument is reduced modulo 256. -/
def EEPROM_Write (addr data : Nat) (s : State) : State :=
  { s with
    eeprom := fun a => if a = addr then data % 256 else s.eeprom a
    eeWrites := s.eeWrites ++ [(addr, data % 256)] }

/-! ## Functions of `main.c` -/

/-- `setMS` (lines 80-93): microstep select lines. -/
def setMS (microSteps : Nat) (s : State) : State :=
  let s1 : State :=
    if microSteps = 2 ∨ microSteps = 8 ∨ microSteps = 16 then { s with MS1 := true }
    else { s with MS1 := false }
  let s2 : State :=
    if microSteps = 4 ∨ microSteps = 8 ∨ microSteps = 16 then { s1 with MS2 := true }
    else { s1 with MS2 := false }
  if microSteps = 16 then { s2 with MS3 := true } else { s2 with MS3 := false }

/-- `calculateDelay` (lines 98-101): `1000000L / (uint32_t) velocity`, cast to
16 bit.  Division by zero has no defined result and is reported as `none`. -/
def calculateDelay (velocity : Nat) : Option Nat :=
  if velocity % 2 ^ 32 = 0 then none
  else
    let delay := (1000000 / (velocity % 2 ^ 32)) % 2 ^ 32
    some (delay % 2 ^ 16)

/-- `stepping` (lines 106-113): one pulse on `STEP`, then a busy wait of
`delayTime` milliseconds (which changes no variable). -/
def stepping (_delayTime : Nat) (s : State) : State :=
  { s with STEP := false, stepPulses := s.stepPulses + 1 }

/-- `interrupt_low` (lines 229-235): wall clock. -/
def interrupt_low (s : State) : State :=
  { s with TMR1H := 0xF8, TMR1L := 0x2f, clock := (s.clock + 1) % 2 ^ 16, TMR1IF := false }

/-- Lines 241-247 of `interrupt`: timer reload and the step pulse. -/
def reloadAndPulse (s : State) : State :=
  let rms := (0xffff + 2 ^ 16 - s.delayCounter % 2 ^ 16) % 2 ^ 16
  { s with
    TMR0H := (rms >>> 8) % 256
    TMR0L := rms % 256
    STEP := false
    stepPulses := s.stepPulses + 1 }

/-- Lines 248-252 of `interrupt`: microstep aggregation. -/
def aggregate (s : State) : State :=
  let s1 : State := { s with subStepCounter := (s.subStepCounter + 1) % 2 ^ 8 }
  if s1.subStepCounter ≥ STEP_DIVISOR then
    { s1 with subStepCounter := 0, stepCounter := (s1.stepCounter + 1) % 2 ^ 16 }
  else s1

/-- Lines 253-256 of `interrupt`: travel-limit check. -/
def limitCheck (s : State) : State :=
  if s.stepCounter > s.stepCounterMax then
    { s with DIR := decide (((bitVal s.DIR + 1) &&& 1) = 1), stepCounter := 0 }
  else s

/-- `interrupt` (lines 237-258): the pulse generator. -/
def interrupt (s : State) : State :=
  { limitCheck (aggregate (reloadAndPulse s)) with TMR0IF := false }

/-- `n` consecutive firings of `interrupt`. -/
def firings : Nat → State → State
  | 0, s => s
  | n + 1, s => firings n (interrupt s)

/-- Lines 213-215 of `main`: `speed += stepIncrement;` in 16 bit, then the
wrap `if (speed > MAX_SPEED) speed = MIN_SPEED;`. -/
def nextSpeed (speed : Nat) (stepIncrement : Int) : Nat :=
  let sp := (((speed : Int) + stepIncrement) % 2 ^ 16).toNat
  if sp > MAX_SPEED then MIN_SPEED else sp

/-- Lines 213-219 of `main`: one pass through the body of the ramp loop after
the `SWITCH` test. -/
def rampTick (s : State) : Option State :=
  let sp := nextSpeed s.speed s.stepIncrement
  match calculateDelay sp with
  | none => none
  | some d =>
    some { s with
      speed := sp
      delayValue := d
      delayCounter := d / STEP_DIVISOR
      writeDelayValue := 1 }

/-- `n` consecutive ramp ticks. -/
def rampTicks : Nat → State → Option State
  | 0, s => some s
  | n + 1, s => (rampTick s).bind (rampTicks n)

/-- Lines 211-220 of `main`: the ramp loop.  It returns the state at loop exit
and the unread samples of `SWITCH`, or `none` when the samples run out while
the loop is still going. -/
def rampPhase : List Bool → State → Option (State × List Bool)
  | sw, s =>
    if s.switchLatch = 0 ∧ s.buttonClickCounter = 0 then
      match sw with
      | [] => none
      | true :: rest => some (s, rest)
      | false :: rest =>
        match rampTick s with
        | none => none
        | some s1 => rampPhase rest s1
    else some (s, sw)

/-- Lines 221-225 of `main`: deferred write of `delayValue`. -/
def writeBack (s : State) : State :=
  if s.writeDelayValue ≠ 0 then
    let s1 : State := { s with writeDelayValue := 0 }
    let s2 := EEPROM_Write 2 s1.delayValue s1
    EEPROM_Write 3 (s2.delayValue >>> 8) s2
  else s

/-- One iteration of the outer `while (1)` (lines 210-226). -/
def mainLoopIter (sw : List Bool) (s : State) : Option (State × List Bool) :=
  match rampPhase sw s with
  | none => none
  | some (s1, rest) => some (writeBack s1, rest)

/-- `n` iterations of the outer `while (1)`. -/
def mainLoop : Nat → List Bool → State → Option (State × List Bool)
  | 0, sw, s => some (s, sw)
  | n + 1, sw, s =>
    match mainLoopIter sw s with
    | none => none
    | some (s1, rest) => mainLoop n rest s1

/-! ## Boot: configuration load, calibration, homing -/

/-- Lines 132-137 and 147, 158: default pin states; timer 0 and the global
interrupt enable are off. -/
def initPins (s : State) : State :=
  let s1 := setMS 1 { s with N_EN := false }
  { s1 with N_RST := true, N_SLP := true, STEP := false, DIR := true,
            TMR0ON := false, GIE := false }

/-- Lines 162-165: reload from EEPROM. -/
def loadConfig (s : State) : State :=
  let s1 : State :=
    { s with stepCounterMax := (EEPROM_Read 0 s + (EEPROM_Read 1 s <<< 8)) % 2 ^ 16 }
  let s2 : State :=
    { s1 with delayValue := (EEPROM_Read 2 s1 + (EEPROM_Read 3 s1 <<< 8)) % 2 ^ 16 }
  let s3 : State :=
    { s2 with stepStart := (EEPROM_Read 4 s2 + (EEPROM_Read 5 s2 <<< 8)) % 2 ^ 16 }
  { s3 with delayCounter := s3.delayValue / STEP_DIVISOR }

/-- `while (!SWITCH);` : consume samples up to and including the first high
one. -/
def waitSwitch : List Bool → Option (List Bool)
  | [] => none
  | true :: rest => some rest
  | false :: rest => waitSwitch rest

/-- `while (SWITCH) { stepCounter++; stepping(50); }` (lines 175-178 and
184-187). -/
def measureLoop : List Bool → State → Option (State × List Bool)
  | [], _ => none
  | false :: rest, s => some (s, rest)
  | true :: rest, s =>
    measureLoop rest (stepping 50 { s with stepCounter := (s.stepCounter + 1) % 2 ^ 16 })

/-- Body of the `if (!SWITCH)` of lines 171-193, after the test. -/
def calibrate (sw : List Bool) (s : State) : Option (State × List Bool) :=
  let s1 := setMS 1 { s with stepCounter := 0 }
  match waitSwitch sw with
  | none => none
  | some sw1 =>
  match measureLoop sw1 s1 with
  | none => none
  | some (s2, sw2) =>
  let s3 : State := { s2 with stepStart := s2.stepCounter }
  let s4 := EEPROM_Write 4 s3.stepStart s3
  let s5 := EEPROM_Write 5 (s4.stepStart >>> 8) s4
  let s6 : State := { s5 with stepCounter := 0 }
  match waitSwitch sw2 with
  | none => none
  | some sw3 =>
  match measureLoop sw3 s6 with
  | none => none
  | some (s7, sw4) =>
  match waitSwitch sw4 with
  | none => none
  | some sw5 =>
  let s8 : State := { s7 with stepCounterMax := s7.stepCounter }
  let s9 : State := { s8 with stepCounter := 0 }
  let s10 := EEPROM_Write 0 s9.stepCounterMax s9
  some (EEPROM_Write 1 (s10.stepCounterMax >>> 8) s10, sw5)

/-- Lines 171-193: rotation angle setup, entered when `SWITCH` reads low. -/
def calibration : List Bool → State → Option (State × List Bool)
  | [], _ => none
  | true :: rest, s => some (s, rest)
  | false :: rest, s => calibrate rest s

/-- `while (stepCounter++ < stepStart) stepping(40);` (lines 200-201), with a
bound on the number of loop tests. -/
def homingLoop : Nat → State → Option State
  | 0, _ => none
  | fuel + 1, s =>
    let s1 : State := { s with stepCounter := (s.stepCounter + 1) % 2 ^ 16 }
    if s.stepCounter < s.stepStart then homingLoop fuel (stepping 40 s1) else some s1

/-- Lines 196-207: going to the zero position, then microstepping on and
interrupts enabled. -/
def homing (s : State) : Option State :=
  let s1 : State := { s with N_RST := false }
  let s2 : State := { s1 with N_RST := true }
  match homingLoop (2 ^ 16 + 1) s2 with
  | none => none
  | some s3 =>
    let s4 : State := { s3 with stepCounter := 0 }
    let s5 := setMS STEP_DIVISOR s4
    some { s5 with GIE := true, TMR0ON := true }

/-- `main` up to the entry of the `while (1)` (lines 116-207), from reset with
EEPROM content `ee` and `SWITCH` samples `sw`. -/
def boot (ee : Nat → Nat) (sw : List Bool) : Option (State × List Bool) :=
  match calibration sw (loadConfig (initPins (resetState ee))) with
  | none => none
  | some (s, rest) =>
    match homing s with
    | none => none
    | some s1 => some (s1, rest)

/-! ## Runs after boot -/

/-- What can happen once interrupts are enabled: a firing of either
interrupt, a ramp tick, the deferred write, or a whole iteration of the outer
loop reading the given `SWITCH` samples. -/
inductive Event where
  | pulse
  | wallClock
  | tick
  | flush
  | iteration (sw : List Bool)

/-- Effect of one event. -/
def Event.apply : Event → State → Option State
  | .pulse, s => some (interrupt s)
  | .wallClock, s => some (interrupt_low s)
  | .tick, s => rampTick s
  | .flush, s => some (writeBack s)
  | .iteration sw, s => (mainLoopIter sw s).map Prod.fst

/-- Effect of a sequence of events. -/
def run : List Event → State → Option State
  | [], s => some s
  | e :: es, s => (e.apply s).bind (run es)

/-- The globals that no statement of the program assigns still hold their
initialisers. -/
def Untouched (s : State) : Prop :=
  s.stepIncrement = 1 ∧ s.switchLatch = 0 ∧ s.buttonClickCounter = 0

/-- The ramp invariant on `speed`. -/
def SpeedInRange (s : State) : Prop := MIN_SPEED ≤ s.speed ∧ s.speed ≤ MAX_SPEED

/-- The variables the ramp loop reads or writes. -/
def rampView (s : State) : Nat × Nat × Nat × Int × Nat × Int :=
  (s.speed, s.delayValue, s.delayCounter, s.stepIncrement, s.switchLatch, s.buttonClickCounter)

/-- Whether a firing of `interrupt` from `s` changes `stepCounter` in its
aggregation step (lines 248-252), before the travel-limit check. -/
def stepAdvances (s : State) : Bool :=
  decide ((aggregate (reloadAndPulse s)).stepCounter ≠ (reloadAndPulse s).stepCounter)

/-- Whether an event performs a ramp tick first thing: a tick on its own, or
an iteration of the outer loop whose first `SWITCH` sample is low. -/
def Event.ticks : Event → Bool
  | .tick => true
  | .iteration (false :: _) => true
  | _ => false

/-- The variables that `main` does not assign before its `while (1)`. -/
def bootView (s : State) : Nat × Int × Nat × Int × Nat × Nat × Nat × Int :=
  (s.speed, s.stepIncrement, s.switchLatch, s.buttonClickCounter, s.subStepCounter,
    s.delayValue, s.delayCounter, s.writeDelayValue)

/-- The ramp loop can run: `speed` is in range and the never-assigned globals
hold their initialisers. -/
def RampOk (s : State) : Prop := SpeedInRange s ∧ Untouched s

/-- The delay derived from the speed. -/
def DelayOk (s : State) : Prop := s.delayValue = 1000000 / s.speed

/-- State in which `main` enters its `while (1)` after a reset with an
all-zero EEPROM and `SWITCH` high (no calibration). -/
def bootedBlank : State :=
  match boot (fun _ => 0) [true] with
  | some (s, _) => s
  | none => resetState (fun _ => 0)

/-- The three microstep select lines `(MS1, MS2, MS3)`. -/
def msPattern (s : State) : Bool × Bool × Bool := (s.MS1, s.MS2, s.MS3)

/-- The 16-bit value held by the timer 0 register pair. -/
def timer0 (s : State) : Nat := 256 * s.TMR0H + s.TMR0L

/-- The persisted configuration and its two in-memory copies, with the global
interrupt enable: what the stepping loops of boot leave alone. -/
def storeView (s : State) : (Nat → Nat) × List (Nat × Nat) × Nat × Nat × Bool :=
  (s.eeprom, s.eeWrites, s.stepStart, s.stepCounterMax, s.GIE)

/-- `SWITCH` samples of a complete calibration after the test at reset: `a`
lows and a high (first wait), `m` highs and a low (first stepping loop, `m`
iterations), `b` lows and a high (second wait), `n` highs and a low (second
stepping loop, `n` iterations), `c` lows and a high (final wait), then
`rest`. -/
def calibrationSamples (a m b n c : Nat) (rest : List Bool) : List Bool :=
  List.replicate a false ++ true :: (List.replicate m true ++ false ::
    (List.replicate b false ++ true :: (List.replicate n true ++ false ::
      (List.replicate c false ++ true :: rest))))

/-- The per-microstep delay derived from `delayValue`. -/
def CounterOk (s : State) : Prop := s.delayCounter = s.delayValue / STEP_DIVISOR

/-- `j` passes through the homing loop of lines 200-201 with its test true:
`stepCounter++`, then `stepping(40)`. -/
def homingPasses : Nat → State → State
  | 0, s => s
  | j + 1, s => homingPasses j (stepping 40 { s with stepCounter := (s.stepCounter + 1) % 2 ^ 16 })

/-- Line 213: `speed += stepIncrement;` in 16 bit. -/
def stmt213 (s : State) : State :=
  { s with speed := (((s.speed : Int) + s.stepIncrement) % 2 ^ 16).toNat }

/-- Lines 214-215: `if (speed > MAX_SPEED) speed = MIN_SPEED;`. -/
def stmt214 (s : State) : State :=
  if s.speed > MAX_SPEED then { s with speed := MIN_SPEED } else s

/-- Line 217: `delayValue = calculateDelay(speed);`. -/
def stmt217 (s : State) : Option State :=
  match calculateDelay s.speed with
  | none => none
  | some d => some { s with delayValue := d }

/-- Line 218: `delayCounter = delayValue / STEP_DIVISOR;`. -/
def stmt218 (s : State) : State :=
  { s with delayCounter := s.delayValue / STEP_DIVISOR }

/-- Line 219: `writeDelayValue = 1;`. -/
def stmt219 (s : State) : State :=
  { s with writeDelayValue := 1 }

/-- Where the main program stands in the body of the ramp loop: the line of
`main.c` it executes next.  `l213` is also where it stands between two passes
(loop test, `SWITCH` poll, deferred write); the 15 ms delay of line 216 is
spent at `l217`. -/
inductive Pc where
  | l213
  | l214
  | l217
  | l218
  | l219

/-- Statement-level events once interrupts are enabled: a firing of either
interrupt, which can come between any two statements of the main program; the
next statement of the ramp loop body; the deferred write, between two
passes. -/
inductive FineEvent where
  | pulse
  | wallClock
  | main
  | flush

/-- Effect of one statement-level event on the position of the main program
and the state. -/
def fineStep : FineEvent → Pc × State → Option (Pc × State)
  | .pulse, (pc, s) => some (pc, interrupt s)
  | .wallClock, (pc, s) => some (pc, interrupt_low s)
  | .main, (.l213, s) => some (.l214, stmt213 s)
  | .main, (.l214, s) => some (.l217, stmt214 s)
  | .main, (.l217, s) => (stmt217 s).map (fun t => (Pc.l218, t))
  | .main, (.l218, s) => some (.l219, stmt218 s)
  | .main, (.l219, s) => some (.l213, stmt219 s)
  | .flush, (.l213, s) => some (.l213, writeBack s)
  | .flush, (_, _) => none

/-- Effect of a sequence of statement-level events. -/
def fineRun : List FineEvent → Pc × State → Option (Pc × State)
  | [], c => some c
  | e :: es, c => (fineStep e c).bind (fineRun es)

/-- Number of statements of the main program in a sequence of events. -/
def mainCount : List FineEvent → Nat
  | [] => 0
  | .main :: es => mainCount es + 1
  | _ :: es => mainCount es

/-- Statements of the main program still to run, from a position, until line
217 has been executed. -/
def untilDelay : Pc → Nat
  | .l213 => 3
  | .l214 => 2
  | .l217 => 1
  | .l218 => 5
  | .l219 => 4

/-- Range of `speed` at each position: line 213 leaves up to 401 until line
214 wraps it. -/
def FineOk : Pc → State → Prop
  | .l214, s => s.stepIncrement = 1 ∧ 51 ≤ s.speed ∧ s.speed ≤ 401
  | _, s => s.stepIncrement = 1 ∧ 50 ≤ s.speed ∧ s.speed ≤ 400

/-- What `delayValue` holds at each position once line 217 has run: the
quotient for the current speed, except between line 213 and line 217, where
it is still the quotient for the speed before line 213. -/
def FineDelay : Pc → State → Prop
  | .l214, s => s.delayValue = 1000000 / (s.speed - 1)
  | .l217, s => s.delayValue = 1000000 / (if s.speed = MIN_SPEED then MAX_SPEED else s.speed - 1)
  | _, s => s.delayValue = 1000000 / s.speed

/-! ## Lemmas on the pulse generator -/

theorem firings_succ (n : Nat) (s : State) : firings (n + 1) s = interrupt (firings n s) := by
  induction n generalizing s with
  | zero => rfl
  | succ n ih => rw [firings, ih (interrupt s)]; rfl

theorem firings_add (m n : Nat) (s : State) : firings (m + n) s = firings n (firings m s) := by
  induction m generalizing s with
  | zero => simp [firings]
  | succ m ih => rw [Nat.succ_add, firings, ih]; rfl

theorem bitVal_toggle (b : Bool) : decide (((bitVal b + 1) &&& 1) = 1) = !b := by
  cases b <;> decide

theorem aggregate_stepCounter (s : State) :
    (aggregate (reloadAndPulse s)).stepCounter =
      if 16 ≤ (s.subStepCounter + 1) % 256 then (s.stepCounter + 1) % 65536
      else s.stepCounter := by
  simp only [aggregate, reloadAndPulse, STEP_DIVISOR]
  split_ifs <;> simp_all

theorem aggregate_stepCounterMax (s : State) :
    (aggregate (reloadAndPulse s)).stepCounterMax = s.stepCounterMax := by
  simp only [aggregate, reloadAndPulse]
  split_ifs <;> rfl

theorem aggregate_DIR (s : State) : (aggregate (reloadAndPulse s)).DIR = s.DIR := by
  simp only [aggregate, reloadAndPulse]
  split_ifs <;> rfl

theorem interrupt_subStepCounter (s : State) :
    (interrupt s).subStepCounter =
      if 16 ≤ (s.subStepCounter + 1) % 256 then 0 else (s.subStepCounter + 1) % 256 := by
  simp only [interrupt, limitCheck, aggregate, reloadAndPulse, STEP_DIVISOR]
  split_ifs <;> simp_all

theorem interrupt_stepCounterMax (s : State) :
    (interrupt s).stepCounterMax = s.stepCounterMax := by
  simp only [interrupt, limitCheck, aggregate, reloadAndPulse]
  split_ifs <;> rfl

theorem interrupt_stepCounter (s : State) :
    (interrupt s).stepCounter =
      if (aggregate (reloadAndPulse s)).stepCounter > s.stepCounterMax then 0
      else (aggregate (reloadAndPulse s)).stepCounter := by
  simp only [interrupt, limitCheck, aggregate_stepCounterMax]
  split_ifs <;> rfl

theorem interrupt_DIR (s : State) :
    (interrupt s).DIR =
      if (aggregate (reloadAndPulse s)).stepCounter > s.stepCounterMax then !s.DIR
      else s.DIR := by
  simp only [interrupt, limitCheck, aggregate_stepCounterMax, aggregate_DIR, bitVal_toggle]
  split_ifs <;> simp [aggregate_DIR]

theorem interrupt_rampView (s : State) : rampView (interrupt s) = rampView s := by
  simp only [interrupt, limitCheck, aggregate, reloadAndPulse, rampView]
  split_ifs <;> rfl

theorem interrupt_low_rampView (s : State) : rampView (interrupt_low s) = rampView s := rfl

theorem firings_subStepCounter (s : State) (h : s.subStepCounter < 16) (n : Nat) :
    (firings n s).subStepCounter = (s.subStepCounter + n) % 16 := by
  induction n with
  | zero => simp [firings]; omega
  | succ n ih =>
    rw [firings_succ, interrupt_subStepCounter, ih]
    split_ifs <;> omega

theorem stepAdvances_iff (s : State) (h : s.subStepCounter < 16) :
    stepAdvances s = true ↔ s.subStepCounter = 15 := by
  simp only [stepAdvances, aggregate_stepCounter, decide_eq_true_eq]
  simp only [reloadAndPulse]
  split_ifs <;> omega

theorem window_count (a : Nat) (h : a < 16) :
    ((List.range 16).filter (fun i => decide ((a + i) % 16 = 15))).length = 1 := by
  interval_cases a <;> decide

theorem succ_mod_cases (k m : Nat) (hm : 0 < m) :
    (k + 1) % m = if k % m + 1 = m then 0 else k % m + 1 := by
  have hlt : k % m < m := Nat.mod_lt _ hm
  rw [Nat.add_mod]
  split_ifs with h
  · by_cases h1 : m = 1
    · subst h1; omega
    · have : 1 % m = 1 := Nat.mod_eq_of_lt (by omega)
      rw [this, h, Nat.mod_self]
  · by_cases h1 : m = 1
    · subst h1; omega
    · have : 1 % m = 1 := Nat.mod_eq_of_lt (by omega)
      rw [this]; exact Nat.mod_eq_of_lt (by omega)

/-- Position inside the oscillation period after `k` firings from the
post-homing state: `p = k mod 16 (L + 1)` splits into the microstep `p mod 16`
and the full step `p / 16`. -/
theorem firings_position (s : State) (L : Nat) (hL : L < 65535)
    (hmax : s.stepCounterMax = L) (hsc : s.stepCounter = 0) (hsub : s.subStepCounter = 0)
    (k : Nat) :
    (firings k s).stepCounterMax = L ∧
    (firings k s).subStepCounter = (k % (16 * (L + 1))) % 16 ∧
    (firings k s).stepCounter = (k % (16 * (L + 1))) / 16 := by
  induction k with
  | zero => simp [firings, hmax, hsc, hsub]
  | succ k ih =>
    obtain ⟨h1, h2, h3⟩ := ih
    have hp : k % (16 * (L + 1)) < 16 * (L + 1) := Nat.mod_lt _ (by omega)
    have hs := succ_mod_cases k (16 * (L + 1)) (by omega)
    rw [firings_succ]
    refine ⟨by rw [interrupt_stepCounterMax, h1], ?_, ?_⟩
    · rw [interrupt_subStepCounter, h2, hs]
      split_ifs <;> omega
    · rw [interrupt_stepCounter, aggregate_stepCounter, h1, h2, h3, hs]
      split_ifs <;> omega

/-! ## Claims on the pulse generator -/

/-- C1: in every firing of `interrupt`, from any state, `DIR` is toggled if
and only if `stepCounter` after the microstep aggregation exceeds
`stepCounterMax` (otherwise `DIR` keeps its value); a firing that toggles
leaves `stepCounter` at 0; `stepCounterMax` is not changed and
`stepCounter ≤ stepCounterMax` holds after every firing. -/
theorem interrupt_toggles_iff_limit_exceeded (s : State) :
    ((interrupt s).DIR = (!s.DIR) ↔
        (aggregate (reloadAndPulse s)).stepCounter > s.stepCounterMax) ∧
    ((interrupt s).DIR ≠ (!s.DIR) ↔ (interrupt s).DIR = s.DIR) ∧
    ((interrupt s).DIR = (!s.DIR) → (interrupt s).stepCounter = 0) ∧
    (interrupt s).stepCounterMax = s.stepCounterMax ∧
    (interrupt s).stepCounter ≤ (interrupt s).stepCounterMax := by
  rw [interrupt_DIR, interrupt_stepCounter, interrupt_stepCounterMax]
  by_cases h : (aggregate (reloadAndPulse s)).stepCounter > s.stepCounterMax
  · simp [h]
  · simp [h]; omega

/-! ## Lemmas on the ramp loop -/

theorem calculateDelay_of_ge (v : Nat) (h : 16 ≤ v) (h2 : v < 65536) :
    calculateDelay v = some (1000000 / v) := by
  have hv : v % 2 ^ 32 = v := Nat.mod_eq_of_lt (by omega)
  have hq : 1000000 / v ≤ 62500 := by
    calc 1000000 / v ≤ 1000000 / 16 := Nat.div_le_div_left h (by norm_num)
      _ = 62500 := by norm_num
  have h32 : 1000000 / v % 2 ^ 32 = 1000000 / v := Nat.mod_eq_of_lt (by omega)
  have h16 : 1000000 / v % 2 ^ 16 = 1000000 / v := Nat.mod_eq_of_lt (by omega)
  simp only [calculateDelay, hv, h32, h16]
  rw [if_neg (by omega)]

theorem nextSpeed_one (sp : Nat) (hlo : MIN_SPEED ≤ sp) (hhi : sp ≤ MAX_SPEED) :
    nextSpeed sp 1 = if sp = MAX_SPEED then MIN_SPEED else sp + 1 := by
  simp only [MIN_SPEED, MAX_SPEED] at *
  have hsp : (((sp : Int) + 1) % 2 ^ 16).toNat = sp + 1 := by omega
  simp only [nextSpeed, hsp, MAX_SPEED, MIN_SPEED]
  split_ifs <;> omega

theorem rampTick_spec (s : State) (hinc : s.stepIncrement = 1)
    (hlo : MIN_SPEED ≤ s.speed) (hhi : s.speed ≤ MAX_SPEED) :
    ∃ s', rampTick s = some s' ∧
      s'.speed = (if s.speed = MAX_SPEED then MIN_SPEED else s.speed + 1) ∧
      s'.delayValue = 1000000 / s'.speed ∧
      s'.delayCounter = s'.delayValue / STEP_DIVISOR ∧
      s'.writeDelayValue = 1 := by
  have hn := nextSpeed_one s.speed hlo hhi
  have hb : 16 ≤ nextSpeed s.speed 1 ∧ nextSpeed s.speed 1 < 65536 := by
    rw [hn]; simp only [MIN_SPEED, MAX_SPEED] at *; split_ifs <;> omega
  simp only [rampTick, hinc, calculateDelay_of_ge _ hb.1 hb.2]
  exact ⟨_, rfl, hn, rfl, rfl, rfl⟩

/-- What a ramp tick leaves alone. -/
theorem rampTick_frame (s s' : State) (h : rampTick s = some s') :
    s'.stepIncrement = s.stepIncrement ∧ s'.switchLatch = s.switchLatch ∧
    s'.buttonClickCounter = s.buttonClickCounter ∧
    s'.subStepCounter = s.subStepCounter ∧ s'.stepCounter = s.stepCounter ∧
    s'.stepCounterMax = s.stepCounterMax ∧ s'.DIR = s.DIR := by
  unfold rampTick at h
  simp only at h
  split at h
  · exact absurd h (by simp)
  · cases h; exact ⟨rfl, rfl, rfl, rfl, rfl, rfl, rfl⟩

theorem rampPhase_nil (s : State) :
    rampPhase [] s = if s.switchLatch = 0 ∧ s.buttonClickCounter = 0 then none else some (s, []) := by
  unfold rampPhase; rfl

theorem rampPhase_high (r : List Bool) (s : State) :
    rampPhase (true :: r) s =
      if s.switchLatch = 0 ∧ s.buttonClickCounter = 0 then some (s, r) else some (s, true :: r) := by
  unfold rampPhase; rfl

theorem rampPhase_low (r : List Bool) (s : State) :
    rampPhase (false :: r) s =
      if s.switchLatch = 0 ∧ s.buttonClickCounter = 0 then
        (match rampTick s with
          | none => none
          | some s1 => rampPhase r s1)
      else some (s, false :: r) := by
  conv_lhs => unfold rampPhase

theorem rampPhase_inv (P : State → Prop)
    (hP : ∀ s s', P s → rampTick s = some s' → P s') :
    ∀ (sw : List Bool) (s s' : State) (r : List Bool),
      P s → rampPhase sw s = some (s', r) → P s' := by
  intro sw
  induction sw with
  | nil =>
    intro s s' r hs h
    rw [rampPhase_nil] at h
    split_ifs at h
    cases h; exact hs
  | cons b sw ih =>
    intro s s' r hs h
    cases b with
    | true =>
      rw [rampPhase_high] at h
      split_ifs at h <;> (cases h; exact hs)
    | false =>
      rw [rampPhase_low] at h
      split_ifs at h
      · cases ht : rampTick s with
        | none => rw [ht] at h; exact absurd h (by simp)
        | some s1 =>
          rw [ht] at h
          exact ih s1 s' r (hP s s1 hs ht) h
      · cases h; exact hs

theorem writeBack_rampView (s : State) : rampView (writeBack s) = rampView s := by
  simp only [writeBack, EEPROM_Write, rampView]
  split_ifs <;> rfl

/-! ## Lemmas on boot -/

theorem setMS_bootView (m : Nat) (s : State) : bootView (setMS m s) = bootView s := by
  simp only [setMS, bootView]
  split_ifs <;> rfl

theorem measureLoop_bootView :
    ∀ (sw : List Bool) (s t : State) (r : List Bool),
      measureLoop sw s = some (t, r) → bootView t = bootView s := by
  intro sw
  induction sw with
  | nil => intro s t r h; simp [measureLoop] at h
  | cons b sw ih =>
    intro s t r h
    cases b with
    | false =>
      simp only [measureLoop, Option.some.injEq, Prod.mk.injEq] at h
      rw [← h.1]
    | true =>
      simp only [measureLoop] at h
      exact (ih _ t r h).trans rfl

theorem calibrate_bootView (sw : List Bool) (s t : State) (r : List Bool)
    (h : calibrate sw s = some (t, r)) : bootView t = bootView s := by
  unfold calibrate at h
  simp only at h
  split at h
  · exact absurd h (by simp)
  · split at h
    · exact absurd h (by simp)
    · rename_i s2 sw2 hm1
      split at h
      · exact absurd h (by simp)
      · split at h
        · exact absurd h (by simp)
        · rename_i s7 sw4 hm2
          split at h
          · exact absurd h (by simp)
          · simp only [Option.some.injEq, Prod.mk.injEq] at h
            have h1 := measureLoop_bootView _ _ _ _ hm1
            have h2 := measureLoop_bootView _ _ _ _ hm2
            rw [setMS_bootView] at h1
            rw [← h.1]
            simp only [bootView, EEPROM_Write] at h1 h2 ⊢
            simp only [Prod.mk.injEq] at h1 h2 ⊢
            simp_all

theorem calibration_bootView (sw : List Bool) (s t : State) (r : List Bool)
    (h : calibration sw s = some (t, r)) : bootView t = bootView s := by
  cases sw with
  | nil => simp [calibration] at h
  | cons b sw =>
    cases b with
    | true =>
      simp only [calibration, Option.some.injEq, Prod.mk.injEq] at h
      rw [← h.1]
    | false => exact calibrate_bootView sw s t r h

theorem homingLoop_bootView :
    ∀ (fuel : Nat) (s t : State), homingLoop fuel s = some t → bootView t = bootView s := by
  intro fuel
  induction fuel with
  | zero => intro s t h; simp [homingLoop] at h
  | succ n ih =>
    intro s t h
    simp only [homingLoop] at h
    split_ifs at h
    · exact (ih _ t h).trans rfl
    · simp only [Option.some.injEq] at h
      rw [← h]; rfl

theorem homing_bootView (s t : State) (h : homing s = some t) :
    bootView t = bootView s ∧ t.stepCounter = 0 := by
  unfold homing at h
  simp only at h
  split at h
  · exact absurd h (by simp)
  · rename_i s3 hl
    simp only [Option.some.injEq] at h
    have h1 := homingLoop_bootView _ _ _ hl
    rw [← h]
    constructor
    · have := setMS_bootView STEP_DIVISOR { s3 with stepCounter := 0 }
      simp only [bootView, Prod.mk.injEq] at this h1 ⊢
      simp_all
    · simp only [setMS]; split_ifs <;> rfl

/-- State of the ramp and microstep variables when `main` enters its
`while (1)`. -/
theorem boot_spec (ee : Nat → Nat) (sw : List Bool) (s0 : State) (r : List Bool)
    (h : boot ee sw = some (s0, r)) :
    s0.speed = 80 ∧ Untouched s0 ∧ s0.subStepCounter = 0 ∧ s0.stepCounter = 0 ∧
    s0.delayValue = (ee 2 % 256 + ((ee 3 % 256) <<< 8)) % 2 ^ 16 ∧
    s0.delayCounter = s0.delayValue / STEP_DIVISOR ∧ s0.writeDelayValue = 0 := by
  unfold boot at h
  split at h
  · exact absurd h (by simp)
  · rename_i s1 r1 hc
    split at h
    · exact absurd h (by simp)
    · rename_i s2 hh
      simp only [Option.some.injEq, Prod.mk.injEq] at h
      obtain ⟨rfl, rfl⟩ := h
      have h1 := calibration_bootView _ _ _ _ hc
      obtain ⟨h2, h3⟩ := homing_bootView _ _ hh
      rw [h1] at h2
      have h4 : bootView (loadConfig (initPins (resetState ee))) =
          ((80 : Nat), (1 : Int), (0 : Nat), (0 : Int), (0 : Nat),
            (ee 2 % 256 + ((ee 3 % 256) <<< 8)) % 2 ^ 16,
            (ee 2 % 256 + ((ee 3 % 256) <<< 8)) % 2 ^ 16 / STEP_DIVISOR, (0 : Int)) := by
        simp only [loadConfig, initPins, setMS, resetState, bootView, EEPROM_Read]
        rfl
      rw [h4] at h2
      simp only [bootView, Prod.mk.injEq] at h2
      obtain ⟨a, b, c, d, e, f, g, i⟩ := h2
      refine ⟨a, ⟨b, c, d⟩, e, h3, f, ?_, i⟩
      rw [g, f]

/-! ## Lemmas on runs -/

theorem RampOk_of_rampView (s t : State) (h : rampView t = rampView s) (hs : RampOk s) :
    RampOk t := by
  simp only [rampView, Prod.mk.injEq] at h
  obtain ⟨h1, -, -, h4, h5, h6⟩ := h
  simp only [RampOk, SpeedInRange, Untouched] at hs ⊢
  rw [h1, h4, h5, h6]; exact hs

theorem DelayOk_of_rampView (s t : State) (h : rampView t = rampView s) (hs : DelayOk s) :
    DelayOk t := by
  simp only [rampView, Prod.mk.injEq] at h
  obtain ⟨h1, h2, -⟩ := h
  simp only [DelayOk] at hs ⊢
  rw [h1, h2]; exact hs

theorem rampTick_RampOk (s s' : State) (hs : RampOk s) (h : rampTick s = some s') :
    RampOk s' ∧ DelayOk s' := by
  obtain ⟨⟨hlo, hhi⟩, hinc, hsl, hbc⟩ := hs
  obtain ⟨t, ht, hsp, hdv, -, -⟩ := rampTick_spec s hinc hlo hhi
  have hts : t = s' := Option.some.inj (ht.symm.trans h)
  subst hts
  obtain ⟨f1, f2, f3, -⟩ := rampTick_frame s t ht
  refine ⟨⟨?_, ?_, ?_, ?_⟩, hdv⟩
  · simp only [SpeedInRange, MIN_SPEED, MAX_SPEED] at hlo hhi hsp ⊢
    rw [hsp]; split_ifs <;> omega
  · rw [f1]; exact hinc
  · rw [f2]; exact hsl
  · rw [f3]; exact hbc

theorem rampPhase_RampOk (sw : List Bool) (s s' : State) (r : List Bool) (hs : RampOk s)
    (h : rampPhase sw s = some (s', r)) : RampOk s' :=
  rampPhase_inv RampOk (fun a b ha hab => (rampTick_RampOk a b ha hab).1) sw s s' r hs h

theorem rampPhase_DelayOk (sw : List Bool) (s s' : State) (r : List Bool)
    (hs : RampOk s ∧ DelayOk s) (h : rampPhase sw s = some (s', r)) : RampOk s' ∧ DelayOk s' :=
  rampPhase_inv (fun a => RampOk a ∧ DelayOk a)
    (fun a b ha hab => rampTick_RampOk a b ha.1 hab) sw s s' r hs h

theorem mainLoopIter_some (sw : List Bool) (s s' : State) (r : List Bool)
    (h : mainLoopIter sw s = some (s', r)) :
    ∃ s1, rampPhase sw s = some (s1, r) ∧ s' = writeBack s1 := by
  unfold mainLoopIter at h
  split at h
  · exact absurd h (by simp)
  · rename_i s1 r1 hp
    simp only [Option.some.injEq, Prod.mk.injEq] at h
    exact ⟨s1, by rw [hp, h.2], h.1.symm⟩

theorem apply_iteration (sw : List Bool) (s s' : State)
    (h : (Event.iteration sw).apply s = some s') :
    ∃ s1 r, rampPhase sw s = some (s1, r) ∧ s' = writeBack s1 := by
  simp only [Event.apply, Option.map_eq_some'] at h
  obtain ⟨⟨a, r⟩, ha, rfl⟩ := h
  obtain ⟨s1, h1, h2⟩ := mainLoopIter_some sw s a r ha
  exact ⟨s1, r, h1, h2⟩

theorem apply_RampOk (e : Event) (s s' : State) (hs : RampOk s) (h : e.apply s = some s') :
    RampOk s' := by
  cases e with
  | pulse =>
    simp only [Event.apply, Option.some.injEq] at h
    rw [← h]; exact RampOk_of_rampView _ _ (interrupt_rampView s) hs
  | wallClock =>
    simp only [Event.apply, Option.some.injEq] at h
    rw [← h]; exact RampOk_of_rampView _ _ (interrupt_low_rampView s) hs
  | tick => exact (rampTick_RampOk s s' hs h).1
  | flush =>
    simp only [Event.apply, Option.some.injEq] at h
    rw [← h]; exact RampOk_of_rampView _ _ (writeBack_rampView s) hs
  | iteration sw =>
    obtain ⟨s1, r, h1, rfl⟩ := apply_iteration sw s s' h
    exact RampOk_of_rampView _ _ (writeBack_rampView s1) (rampPhase_RampOk sw s s1 r hs h1)

theorem apply_DelayOk (e : Event) (s s' : State) (hs : RampOk s ∧ DelayOk s)
    (h : e.apply s = some s') : RampOk s' ∧ DelayOk s' := by
  refine ⟨apply_RampOk e s s' hs.1 h, ?_⟩
  cases e with
  | pulse =>
    simp only [Event.apply, Option.some.injEq] at h
    rw [← h]; exact DelayOk_of_rampView _ _ (interrupt_rampView s) hs.2
  | wallClock =>
    simp only [Event.apply, Option.some.injEq] at h
    rw [← h]; exact DelayOk_of_rampView _ _ (interrupt_low_rampView s) hs.2
  | tick => exact (rampTick_RampOk s s' hs.1 h).2
  | flush =>
    simp only [Event.apply, Option.some.injEq] at h
    rw [← h]; exact DelayOk_of_rampView _ _ (writeBack_rampView s) hs.2
  | iteration sw =>
    obtain ⟨s1, r, h1, rfl⟩ := apply_iteration sw s s' h
    exact DelayOk_of_rampView _ _ (writeBack_rampView s1) (rampPhase_DelayOk sw s s1 r hs h1).2

theorem apply_ticks_DelayOk (e : Event) (s s' : State) (hs : RampOk s) (ht : e.ticks = true)
    (h : e.apply s = some s') : DelayOk s' := by
  cases e with
  | pulse => simp [Event.ticks] at ht
  | wallClock => simp [Event.ticks] at ht
  | flush => simp [Event.ticks] at ht
  | tick => exact (rampTick_RampOk s s' hs h).2
  | iteration sw =>
    obtain ⟨s1, r, h1, rfl⟩ := apply_iteration sw s s' h
    refine DelayOk_of_rampView _ _ (writeBack_rampView s1) ?_
    cases sw with
    | nil => simp [Event.ticks] at ht
    | cons b sw =>
      cases b with
      | true => simp [Event.ticks] at ht
      | false =>
        rw [rampPhase_low, if_pos ⟨hs.2.2.1, hs.2.2.2⟩] at h1
        cases htk : rampTick s with
        | none => rw [htk] at h1; exact absurd h1 (by simp)
        | some s2 =>
          rw [htk] at h1
          exact (rampPhase_DelayOk sw s2 s1 r (rampTick_RampOk s s2 hs htk) h1).2

theorem run_inv (P : State → Prop)
    (hP : ∀ (e : Event) (s s' : State), P s → e.apply s = some s' → P s') :
    ∀ (evs : List Event) (s s' : State), P s → run evs s = some s' → P s' := by
  intro evs
  induction evs with
  | nil => intro s s' hs h; simp only [run, Option.some.injEq] at h; rw [← h]; exact hs
  | cons e es ih =>
    intro s s' hs h
    simp only [run, Option.bind_eq_some] at h
    obtain ⟨s1, h1, h2⟩ := h
    exact ih s1 s' (hP e s s1 hs h1) h2

theorem run_ticks_DelayOk :
    ∀ (evs : List Event) (s s' : State), RampOk s → run evs s = some s' →
      (∃ e ∈ evs, e.ticks = true) → DelayOk s' := by
  intro evs
  induction evs with
  | nil => intro s s' _ _ ht; obtain ⟨e, he, -⟩ := ht; simp at he
  | cons e es ih =>
    intro s s' hs h ht
    simp only [run, Option.bind_eq_some] at h
    obtain ⟨s1, h1, h2⟩ := h
    have hs1 := apply_RampOk e s s1 hs h1
    by_cases hte : e.ticks = true
    · have hd := apply_ticks_DelayOk e s s1 hs hte h1
      exact (run_inv (fun a => RampOk a ∧ DelayOk a) apply_DelayOk es s1 s' ⟨hs1, hd⟩ h2).2
    · obtain ⟨e', he', hte'⟩ := ht
      rcases List.mem_cons.1 he' with rfl | hmem
      · exact absurd hte' hte
      · exact ih s1 s' hs1 h2 ⟨e', hmem, hte'⟩

theorem boot_RampOk (ee : Nat → Nat) (sw : List Bool) (s0 : State) (r : List Bool)
    (h : boot ee sw = some (s0, r)) : RampOk s0 := by
  obtain ⟨h1, h2, -⟩ := boot_spec ee sw s0 r h
  refine ⟨?_, h2⟩
  simp only [SpeedInRange, MIN_SPEED, MAX_SPEED, h1]
  omega

theorem run_subStepCounter :
    ∀ (evs : List Event) (s s' : State), s.subStepCounter < 16 → run evs s = some s' →
      s'.subStepCounter < 16 := by
  refine run_inv (fun a => a.subStepCounter < 16) ?_
  intro e s s' hs h
  cases e with
  | pulse =>
    simp only [Event.apply, Option.some.injEq] at h
    rw [← h, interrupt_subStepCounter]; split_ifs <;> omega
  | wallClock =>
    simp only [Event.apply, Option.some.injEq] at h
    rw [← h]; exact hs
  | tick =>
    have := (rampTick_frame s s' h).2.2.2.1
    show s'.subStepCounter < 16
    rw [this]; exact hs
  | flush =>
    simp only [Event.apply, Option.some.injEq] at h
    rw [← h]
    show (writeBack s).subStepCounter < 16
    simp only [writeBack, EEPROM_Write]
    split_ifs <;> exact hs
  | iteration sw =>
    obtain ⟨s1, r, h1, rfl⟩ := apply_iteration sw s s' h
    have h2 : s1.subStepCounter < 16 :=
      rampPhase_inv (fun a => a.subStepCounter < 16)
        (fun a b ha hab => by
          have := (rampTick_frame a b hab).2.2.2.1
          show b.subStepCounter < 16
          rw [this]; exact ha) sw s s1 r hs h1
    show (writeBack s1).subStepCounter < 16
    simp only [writeBack, EEPROM_Write]
    split_ifs <;> exact h2

/-- C2: a firing of `interrupt` from any state (whatever `subStepCounter`
holds) leaves `subStepCounter < 16`; and `subStepCounter < 16` holds in every
state reached from boot by firings of either interrupt, ramp ticks, deferred
writes and iterations of the outer loop. -/
theorem subStepCounter_below_divisor :
    (∀ s : State, (interrupt s).subStepCounter < STEP_DIVISOR) ∧
    (∀ (ee : Nat → Nat) (sw : List Bool) (s0 : State) (r : List Bool) (evs : List Event)
        (s : State), boot ee sw = some (s0, r) → run evs s0 = some s →
        s.subStepCounter < STEP_DIVISOR) := by
  constructor
  · intro s
    rw [interrupt_subStepCounter, STEP_DIVISOR]; split_ifs <;> omega
  · intro ee sw s0 r evs s hb hr
    have h0 := (boot_spec ee sw s0 r hb).2.2.1
    exact run_subStepCounter evs s0 s (by rw [h0]; decide) hr

theorem boot_blank : boot (fun _ => 0) [true] = some (bootedBlank, []) := rfl

theorem run_blank_isSome :
    (run [Event.pulse, Event.tick, Event.iteration [false, true], Event.wallClock]
      bootedBlank).isSome = true := by
  decide

/-- Witness for C2: a firing from `subStepCounter = 255`, and a run after a
boot without calibration. -/
theorem subStepCounter_below_divisor_witness :
    (interrupt { resetState (fun _ => 0) with subStepCounter := 255 }).subStepCounter
        < STEP_DIVISOR ∧
    ∃ s, run [Event.pulse, Event.tick, Event.iteration [false, true], Event.wallClock]
        bootedBlank = some s ∧ s.subStepCounter < STEP_DIVISOR :=
  ⟨subStepCounter_below_divisor.1 _, _, (Option.some_get run_blank_isSome).symm,
    subStepCounter_below_divisor.2 (fun _ => 0) [true] bootedBlank [] _ _ boot_blank
      (Option.some_get run_blank_isSome).symm⟩

/-- C3: from a state with `subStepCounter < 16`, the aggregation step of a
firing increments `stepCounter` (by 1, in 16 bit) if and only if
`subStepCounter` was 15, which is also exactly when `subStepCounter` wraps to
0; otherwise `stepCounter` is not changed by the aggregation.  In every window
of 16 consecutive firings (the firings `j + 1 .. j + 16`, for any `j`) exactly
one firing advances `stepCounter`. -/
theorem stepCounter_advances_on_wrap (s : State) (h : s.subStepCounter < STEP_DIVISOR) :
    ((aggregate (reloadAndPulse s)).stepCounter = (s.stepCounter + 1) % 2 ^ 16 ↔
        s.subStepCounter = STEP_DIVISOR - 1) ∧
    ((aggregate (reloadAndPulse s)).stepCounter = s.stepCounter ↔
        s.subStepCounter ≠ STEP_DIVISOR - 1) ∧
    ((interrupt s).subStepCounter = 0 ↔ s.subStepCounter = STEP_DIVISOR - 1) ∧
    ∀ j : Nat,
      ((List.range STEP_DIVISOR).filter
        (fun i => stepAdvances (firings (j + i) s))).length = 1 := by
  simp only [STEP_DIVISOR] at h ⊢
  refine ⟨?_, ?_, ?_, ?_⟩
  · rw [aggregate_stepCounter]; split_ifs <;> omega
  · rw [aggregate_stepCounter]; split_ifs <;> omega
  · rw [interrupt_subStepCounter]; split_ifs <;> omega
  · intro j
    have hj : (firings j s).subStepCounter < 16 := by
      rw [firings_subStepCounter s h]; omega
    have : (fun i => stepAdvances (firings (j + i) s)) =
        (fun i => decide (((firings j s).subStepCounter + i) % 16 = 15)) := by
      funext i
      have hi : (firings (j + i) s).subStepCounter < 16 := by
        rw [firings_subStepCounter s h]; omega
      have := stepAdvances_iff _ hi
      rw [firings_add, firings_subStepCounter _ hj] at this
      rw [firings_add]
      by_cases hx : ((firings j s).subStepCounter + i) % 16 = 15
      · simp [hx, this.2 hx]
      · simp only [hx, decide_False]
        cases hsa : stepAdvances (firings i (firings j s)) with
        | false => rfl
        | true => exact absurd (this.1 hsa) hx
    rw [this]
    exact window_count _ hj

/-- Witness for C3: the state after reset, `subStepCounter = 0`. -/
theorem stepCounter_advances_on_wrap_witness :
    (resetState (fun _ => 0)).subStepCounter < STEP_DIVISOR ∧
    ((List.range STEP_DIVISOR).filter
      (fun i => stepAdvances (firings (5 + i) (resetState (fun _ => 0))))).length = 1 :=
  ⟨by decide, (stepCounter_advances_on_wrap (resetState (fun _ => 0)) (by decide)).2.2.2 5⟩

/-- C4: from a state with `stepCounter = 0`, `subStepCounter = 0` and
`stepCounterMax = L < 65535`, the `k`-th firing (`k ≥ 1`) toggles `DIR` if and
only if `16 (L + 1)` divides `k`, and leaves `DIR` alone otherwise; at the
toggling firings `stepCounter` reaches `L + 1` in the aggregation and is 0
after the firing; at the others it stays at most `L`. -/
theorem direction_toggles_every_period (s : State) (L : Nat) (hL : L < 65535)
    (hmax : s.stepCounterMax = L) (hsc : s.stepCounter = 0) (hsub : s.subStepCounter = 0)
    (k : Nat) (hk : 1 ≤ k) :
    ((interrupt (firings (k - 1) s)).DIR = (!(firings (k - 1) s).DIR) ↔
        STEP_DIVISOR * (L + 1) ∣ k) ∧
    (¬ STEP_DIVISOR * (L + 1) ∣ k →
        (interrupt (firings (k - 1) s)).DIR = (firings (k - 1) s).DIR) ∧
    (STEP_DIVISOR * (L + 1) ∣ k →
      (aggregate (reloadAndPulse (firings (k - 1) s))).stepCounter = L + 1 ∧
      (firings k s).stepCounter = 0) ∧
    (¬ STEP_DIVISOR * (L + 1) ∣ k → (firings k s).stepCounter ≤ L) := by
  obtain ⟨j, rfl⟩ : ∃ j, k = j + 1 := ⟨k - 1, by omega⟩
  simp only [Nat.add_sub_cancel, STEP_DIVISOR]
  obtain ⟨h1, h2, h3⟩ := firings_position s L hL hmax hsc hsub j
  have hp : j % (16 * (L + 1)) < 16 * (L + 1) := Nat.mod_lt _ (by omega)
  have hs := succ_mod_cases j (16 * (L + 1)) (by omega)
  have hd : 16 * (L + 1) ∣ j + 1 ↔ j % (16 * (L + 1)) + 1 = 16 * (L + 1) := by
    rw [Nat.dvd_iff_mod_eq_zero, hs]
    split_ifs with h <;> simp [h]
  rw [hd, firings_succ, interrupt_DIR, interrupt_stepCounter, aggregate_stepCounter, h1, h2, h3]
  refine ⟨?_, ?_, ?_, ?_⟩
  · split_ifs <;> first | omega | (simp; omega)
  · intro h
    split_ifs <;> first | omega | rfl
  · intro h
    split_ifs <;> omega
  · intro h
    split_ifs <;> omega

/-- Witness for C4: travel limit 900, the firing number 14416 = 16 * 901
toggles `DIR` with `stepCounter` going from 901 to 0. -/
theorem direction_toggles_every_period_witness :
    ((interrupt (firings (14416 - 1) { resetState (fun _ => 0) with stepCounterMax := 900 })).DIR
        = (!(firings (14416 - 1) { resetState (fun _ => 0) with stepCounterMax := 900 }).DIR)) ∧
    (aggregate (reloadAndPulse
        (firings (14416 - 1) { resetState (fun _ => 0) with stepCounterMax := 900 }))).stepCounter
        = 901 ∧
    (firings 14416 { resetState (fun _ => 0) with stepCounterMax := 900 }).stepCounter = 0 :=
  have h := direction_toggles_every_period
    { resetState (fun _ => 0) with stepCounterMax := 900 } 900 (by decide) rfl rfl rfl
    14416 (by decide)
  ⟨h.1.2 (by decide), h.2.2.1 (by decide)⟩

/-- C5, counterexample: for the non-zero speed 1 the 16-bit result is
1000000 mod 65536 = 16960, not the quotient 1000000. -/
theorem calculateDelay_one_truncated :
    calculateDelay 1 = some 16960 ∧ calculateDelay 1 ≠ some (1000000 / 1) := by
  decide

theorem calculateDelay_mod (v : Nat) (h : 0 < v) (h2 : v < 65536) :
    calculateDelay v = some (1000000 / v % 65536) := by
  have hv : v % 2 ^ 32 = v := Nat.mod_eq_of_lt (by omega)
  have hq : 1000000 / v ≤ 1000000 := Nat.div_le_self _ _
  have h32 : 1000000 / v % 2 ^ 32 = 1000000 / v := Nat.mod_eq_of_lt (by omega)
  simp only [calculateDelay, hv, h32]
  rw [if_neg (by omega)]
  rfl

/-- C5, amended: for every 16-bit speed from 16 upwards `calculateDelay`
returns the truncated quotient `1000000 / speed`; for every non-zero 16-bit
speed it returns that quotient modulo 65536 (which differs from the quotient
exactly for speeds 1 to 15); and `calculateDelay 100 = 10000`,
`calculateDelay 50 = 20000`, `calculateDelay 400 = 2500`. -/
theorem calculateDelay_quotient :
    (∀ speed : Nat, 16 ≤ speed → speed < 2 ^ 16 →
        calculateDelay speed = some (1000000 / speed)) ∧
    (∀ speed : Nat, 0 < speed → speed < 2 ^ 16 →
        calculateDelay speed = some (1000000 / speed % 2 ^ 16)) ∧
    (∀ speed : Nat, 0 < speed → speed < 16 →
        calculateDelay speed ≠ some (1000000 / speed)) ∧
    calculateDelay 100 = some 10000 ∧ calculateDelay 50 = some 20000 ∧
    calculateDelay 400 = some 2500 := by
  refine ⟨fun v h1 h2 => calculateDelay_of_ge v h1 h2,
    fun v h1 h2 => calculateDelay_mod v h1 h2, ?_, by decide, by decide, by decide⟩
  intro v h1 h2
  interval_cases v <;> decide

/-- Witness for C5 (amended): speed 16, the smallest speed without loss. -/
theorem calculateDelay_quotient_witness :
    calculateDelay 16 = some 62500 ∧ calculateDelay 15 = some 1130 :=
  ⟨calculateDelay_quotient.1 16 (by decide) (by decide),
   calculateDelay_quotient.2.1 15 (by decide) (by decide)⟩

theorem rampTicks_speed :
    ∀ (n : Nat) (s : State), s.stepIncrement = 1 → MIN_SPEED ≤ s.speed → s.speed ≤ MAX_SPEED →
      ∃ s', rampTicks n s = some s' ∧ s'.speed = 50 + (s.speed - 50 + n) % 351 ∧
        s'.stepIncrement = 1 ∧ s'.switchLatch = s.switchLatch ∧
        s'.buttonClickCounter = s.buttonClickCounter := by
  intro n
  induction n with
  | zero =>
    intro s _ hlo hhi
    simp only [MIN_SPEED, MAX_SPEED] at hlo hhi
    exact ⟨s, rfl, by omega, by assumption, rfl, rfl⟩
  | succ n ih =>
    intro s hinc hlo hhi
    obtain ⟨s1, h1, hsp, -, -, -⟩ := rampTick_spec s hinc hlo hhi
    obtain ⟨f1, f2, f3, -⟩ := rampTick_frame s s1 h1
    simp only [MIN_SPEED, MAX_SPEED] at hlo hhi hsp
    have hlo1 : MIN_SPEED ≤ s1.speed := by
      simp only [MIN_SPEED]; rw [hsp]; split_ifs <;> omega
    have hhi1 : s1.speed ≤ MAX_SPEED := by
      simp only [MAX_SPEED]; rw [hsp]; split_ifs <;> omega
    obtain ⟨s2, h2, hsp2, hinc2, hsl, hbc⟩ := ih s1 (by rw [f1]; exact hinc) hlo1 hhi1
    refine ⟨s2, ?_, ?_, hinc2, by rw [hsl, f2], by rw [hbc, f3]⟩
    · simp only [rampTicks, h1, Option.some_bind]; exact h2
    · rw [hsp2, hsp]; split_ifs <;> omega

theorem rampPhase_lows (r : List Bool) :
    ∀ (n : Nat) (s s' : State), s.switchLatch = 0 → s.buttonClickCounter = 0 →
      rampTicks n s = some s' →
      rampPhase (List.replicate n false ++ true :: r) s = some (s', r) := by
  intro n
  induction n with
  | zero =>
    intro s s' hsl hbc h
    simp only [rampTicks, Option.some.injEq] at h
    subst h
    simp only [List.replicate, List.nil_append]
    rw [rampPhase_high, if_pos ⟨hsl, hbc⟩]
  | succ n ih =>
    intro s s' hsl hbc h
    simp only [rampTicks, Option.bind_eq_some] at h
    obtain ⟨s1, h1, h2⟩ := h
    obtain ⟨-, f2, f3, -⟩ := rampTick_frame s s1 h1
    simp only [List.replicate, List.cons_append]
    rw [rampPhase_low, if_pos ⟨hsl, hbc⟩, h1]
    exact ih s1 s' (by rw [f2]; exact hsl) (by rw [f3]; exact hbc) h2

/-- C6: from a state with `speed = 50` (the never-assigned globals holding
their initialisers, `stepIncrement = 1`), `N` ramp ticks succeed and leave
`speed = 50 + N mod 351`, which is `50 + N` for `N ≤ 350`; this is the state in
which the ramp loop exits when `SWITCH` reads low `N` times and then high;
after 350 ticks `speed` is 400 and the 351st tick gives 50. -/
theorem ramp_sawtooth (s : State) (h50 : s.speed = 50) (hU : Untouched s) (N : Nat) :
    (∃ s', rampTicks N s = some s' ∧ s'.speed = 50 + N % 351 ∧
      (N ≤ 350 → s'.speed = 50 + N) ∧
      ∀ r, rampPhase (List.replicate N false ++ true :: r) s = some (s', r)) ∧
    (∃ s350 s351, rampTicks 350 s = some s350 ∧ s350.speed = MAX_SPEED ∧
      rampTick s350 = some s351 ∧ s351.speed = MIN_SPEED) := by
  obtain ⟨hinc, hsl, hbc⟩ := hU
  have hlo : MIN_SPEED ≤ s.speed := by rw [h50]; decide
  have hhi : s.speed ≤ MAX_SPEED := by rw [h50]; decide
  constructor
  · obtain ⟨s', h1, h2, -⟩ := rampTicks_speed N s hinc hlo hhi
    rw [h50] at h2
    refine ⟨s', h1, by simpa using h2, ?_, fun r => rampPhase_lows r N s s' hsl hbc h1⟩
    intro hN
    rw [h2]; omega
  · obtain ⟨s350, h1, h2, h3, -, -⟩ := rampTicks_speed 350 s hinc hlo hhi
    rw [h50] at h2
    have h400 : s350.speed = 400 := by rw [h2]
    obtain ⟨s351, h4, h5, -⟩ :=
      rampTick_spec s350 h3 (by rw [h400]; decide) (by rw [h400]; decide)
    refine ⟨s350, s351, h1, h400, h4, ?_⟩
    rw [h5, if_pos (by rw [h400]; rfl)]

/-- Witness for C6: 352 ticks from `speed = 50` give `speed = 51`. -/
theorem ramp_sawtooth_witness :
    ∃ s', rampTicks 352 { resetState (fun _ => 0) with speed := 50 } = some s' ∧
      s'.speed = 50 + 352 % 351 :=
  match (ramp_sawtooth { resetState (fun _ => 0) with speed := 50 } rfl ⟨rfl, rfl, rfl⟩ 352).1 with
  | ⟨s', h1, h2, _⟩ => ⟨s', h1, h2⟩

/-- C7: in every state reached from boot (any EEPROM content, any `SWITCH`
samples during boot) by firings of either interrupt, ramp ticks, deferred
writes and iterations of the outer loop, `MIN_SPEED ≤ speed ≤ MAX_SPEED`; the
boot state itself has `speed = 80`; and a ramp tick from such a state passes
a non-zero speed to `calculateDelay`, succeeds, and leaves `speed` in the same
range. -/
theorem speed_in_range_reachable (ee : Nat → Nat) (sw : List Bool) (s0 : State)
    (r : List Bool) (evs : List Event) (s : State)
    (hb : boot ee sw = some (s0, r)) (hr : run evs s0 = some s) :
    s0.speed = 80 ∧
    MIN_SPEED ≤ s.speed ∧ s.speed ≤ MAX_SPEED ∧
    nextSpeed s.speed s.stepIncrement ≠ 0 ∧
    ∃ s', rampTick s = some s' ∧ MIN_SPEED ≤ s'.speed ∧ s'.speed ≤ MAX_SPEED := by
  have h0 := boot_RampOk ee sw s0 r hb
  have hs : RampOk s := run_inv RampOk apply_RampOk evs s0 s h0 hr
  obtain ⟨⟨hlo, hhi⟩, hinc, -, -⟩ := hs
  obtain ⟨s', h1, h2, -⟩ := rampTick_spec s hinc hlo hhi
  have hn := nextSpeed_one s.speed hlo hhi
  simp only [MIN_SPEED, MAX_SPEED] at hlo hhi h2 hn ⊢
  refine ⟨(boot_spec ee sw s0 r hb).1, hlo, hhi, ?_, s', h1, ?_, ?_⟩
  · rw [hinc, hn]; split_ifs <;> omega
  · rw [h2]; split_ifs <;> omega
  · rw [h2]; split_ifs <;> omega

/-- Witness for C7: a run after a boot without calibration. -/
theorem speed_in_range_reachable_witness :
    ∃ s, run [Event.pulse, Event.tick, Event.iteration [false, true], Event.wallClock]
        bootedBlank = some s ∧ MIN_SPEED ≤ s.speed ∧ s.speed ≤ MAX_SPEED :=
  have h := speed_in_range_reachable (fun _ => 0) [true] bootedBlank [] _ _ boot_blank
      (Option.some_get run_blank_isSome).symm
  ⟨_, (Option.some_get run_blank_isSome).symm, h.2.1, h.2.2.1⟩

/-- C8: a ramp tick from a state with `MIN_SPEED ≤ speed ≤ MAX_SPEED` (and
`stepIncrement` holding its initialiser 1) succeeds and leaves
`delayValue = 1000000 / speed` for the new speed, a quotient that fits 16 bit,
`delayCounter = delayValue / 16`, the new speed again in range, and the dirty
flag `writeDelayValue` set. -/
theorem rampTick_delay_consistent (s : State) (hinc : s.stepIncrement = 1)
    (hlo : MIN_SPEED ≤ s.speed) (hhi : s.speed ≤ MAX_SPEED) :
    ∃ s', rampTick s = some s' ∧
      s'.delayValue = 1000000 / s'.speed ∧ 1000000 / s'.speed < 2 ^ 16 ∧
      s'.delayCounter = s'.delayValue / STEP_DIVISOR ∧
      MIN_SPEED ≤ s'.speed ∧ s'.speed ≤ MAX_SPEED ∧ s'.writeDelayValue = 1 := by
  obtain ⟨s', h1, h2, h3, h4, h5⟩ := rampTick_spec s hinc hlo hhi
  simp only [MIN_SPEED, MAX_SPEED] at hlo hhi h2 ⊢
  have hlo1 : 50 ≤ s'.speed := by rw [h2]; split_ifs <;> omega
  have hhi1 : s'.speed ≤ 400 := by rw [h2]; split_ifs <;> omega
  refine ⟨s', h1, h3, ?_, h4, hlo1, hhi1, h5⟩
  calc 1000000 / s'.speed ≤ 1000000 / 50 := Nat.div_le_div_left hlo1 (by norm_num)
    _ < 2 ^ 16 := by norm_num

/-- Witness for C8: the tick from the initial `speed = 80`. -/
theorem rampTick_delay_consistent_witness :
    ∃ s', rampTick (resetState (fun _ => 0)) = some s' ∧
      s'.delayValue = 1000000 / s'.speed ∧ s'.delayCounter = s'.delayValue / STEP_DIVISOR :=
  match rampTick_delay_consistent (resetState (fun _ => 0)) rfl (by decide) (by decide) with
  | ⟨s', h1, h2, _, h4, _⟩ => ⟨s', h1, h2, h4⟩

/-- C9, counterexample: with the EEPROM holding `delayValue = 2500` (bytes
`0xC4`, `0x09` at addresses 2 and 3, what the ramp stores at speed 400) and no
calibration, `main` enters its loop with `speed = 80` and `delayValue = 2500`,
which is not `1000000 / 80 = 12500`. -/
theorem boot_delayValue_not_derived :
    (boot (fun a => if a = 2 then 196 else if a = 3 then 9 else 0) [true]).map
        (fun p => (p.1.speed, p.1.delayValue)) = some (80, 2500) ∧
    (2500 : Nat) ≠ 1000000 / 80 := by
  decide

/-- Whole-tick granularity: when `main` enters its loop, `speed = 80` and
`delayValue` is the 16-bit little-endian value of EEPROM bytes 2 and 3; in
every state reached from there by a run of whole events (each ramp tick taken
as one step) that performs a ramp tick, `delayValue = 1000000 / speed`.  The
statement-level account, with interrupts inside a tick, is
`delay_derived_outside_update`. -/
theorem delay_derived_after_tick (ee : Nat → Nat) (sw : List Bool) (s0 : State)
    (r : List Bool) (evs : List Event) (s : State)
    (hb : boot ee sw = some (s0, r)) (hr : run evs s0 = some s) :
    s0.speed = 80 ∧ s0.delayValue = ee 2 % 256 + 256 * (ee 3 % 256) ∧
    ((∃ e ∈ evs, e.ticks = true) → s.delayValue = 1000000 / s.speed) := by
  obtain ⟨h1, -, -, -, h5, -⟩ := boot_spec ee sw s0 r hb
  refine ⟨h1, ?_, fun ht => run_ticks_DelayOk evs s0 s (boot_RampOk ee sw s0 r hb) hr ht⟩
  rw [h5, Nat.shiftLeft_eq]
  omega

/-- Instance of `delay_derived_after_tick`: a run after a boot without
calibration whose second event is a ramp tick. -/
theorem delay_derived_after_tick_witness :
    ∃ s, run [Event.pulse, Event.tick, Event.iteration [false, true], Event.wallClock]
        bootedBlank = some s ∧ s.delayValue = 1000000 / s.speed :=
  ⟨_, (Option.some_get run_blank_isSome).symm,
    (delay_derived_after_tick (fun _ => 0) [true] bootedBlank [] _ _ boot_blank
      (Option.some_get run_blank_isSome).symm).2.2 ⟨Event.tick, by simp, rfl⟩⟩

theorem mainLoop_paused (r : List Bool) :
    ∀ (n m : Nat) (s : State), n ≤ m →
      ∃ s' r', mainLoop n (List.replicate m true ++ r) s = some (s', r') ∧
        rampView s' = rampView s := by
  intro n
  induction n with
  | zero => intro m s _; exact ⟨s, _, rfl, rfl⟩
  | succ n ih =>
    intro m s hnm
    obtain ⟨m', rfl⟩ : ∃ m', m = m' + 1 := ⟨m - 1, by omega⟩
    by_cases hc : s.switchLatch = 0 ∧ s.buttonClickCounter = 0
    · obtain ⟨s', r', h1, h2⟩ := ih m' (writeBack s) (by omega)
      refine ⟨s', r', ?_, h2.trans (writeBack_rampView s)⟩
      simp only [mainLoop, mainLoopIter, List.replicate, List.cons_append, rampPhase_high,
        if_pos hc]
      exact h1
    · obtain ⟨s', r', h1, h2⟩ := ih (m' + 1) (writeBack s) (by omega)
      refine ⟨s', r', ?_, h2.trans (writeBack_rampView s)⟩
      simp only [List.replicate, List.cons_append] at h1
      simp only [mainLoop, mainLoopIter, List.replicate, List.cons_append, rampPhase_high,
        if_neg hc]
      exact h1

/-- C10: in every state, a pass through the ramp loop that finds `SWITCH`
high when it polls it performs no ramp tick and leaves the whole state
unchanged; the iteration of the outer loop then only runs the deferred write;
and over any number `n` of iterations of the outer loop with `SWITCH` high,
`speed`, `delayValue` and `delayCounter` keep their values. -/
theorem pause_freezes_ramp (s : State) (r : List Bool) :
    (∃ r', rampPhase (true :: r) s = some (s, r')) ∧
    (∃ r', mainLoopIter (true :: r) s = some (writeBack s, r')) ∧
    (writeBack s).speed = s.speed ∧ (writeBack s).delayValue = s.delayValue ∧
    (writeBack s).delayCounter = s.delayCounter ∧
    ∀ n : Nat, ∃ s' r', mainLoop n (List.replicate n true ++ r) s = some (s', r') ∧
      s'.speed = s.speed ∧ s'.delayValue = s.delayValue ∧
      s'.delayCounter = s.delayCounter := by
  have hw := writeBack_rampView s
  simp only [rampView, Prod.mk.injEq] at hw
  refine ⟨?_, ?_, hw.1, hw.2.1, hw.2.2.1, ?_⟩
  · rw [rampPhase_high]; split_ifs <;> exact ⟨_, rfl⟩
  · simp only [mainLoopIter, rampPhase_high]; split_ifs <;> exact ⟨_, rfl⟩
  · intro n
    obtain ⟨s', r', h1, h2⟩ := mainLoop_paused r n n s (le_refl n)
    simp only [rampView, Prod.mk.injEq] at h2
    exact ⟨s', r', h1, h2.1, h2.2.1, h2.2.2.1⟩

theorem rampTick_store (s s' : State) (h : rampTick s = some s') :
    s'.eeprom = s.eeprom ∧ s'.eeWrites = s.eeWrites ∧ s'.clock = s.clock ∧
    s'.stepStart = s.stepStart ∧ s'.stepPulses = s.stepPulses := by
  unfold rampTick at h
  simp only at h
  split at h
  · exact absurd h (by simp)
  · cases h; exact ⟨rfl, rfl, rfl, rfl, rfl⟩

theorem rampPhase_store (sw : List Bool) (s s' : State) (r : List Bool)
    (h : rampPhase sw s = some (s', r)) :
    s'.eeprom = s.eeprom ∧ s'.eeWrites = s.eeWrites :=
  rampPhase_inv (fun a => a.eeprom = s.eeprom ∧ a.eeWrites = s.eeWrites)
    (fun a b ha hab => by
      obtain ⟨h1, h2, -⟩ := rampTick_store a b hab
      exact ⟨h1.trans ha.1, h2.trans ha.2⟩) sw s s' r ⟨rfl, rfl⟩ h

theorem rampTicks_store :
    ∀ (n : Nat) (s s' : State), rampTicks n s = some s' →
      s'.eeprom = s.eeprom ∧ s'.eeWrites = s.eeWrites := by
  intro n
  induction n with
  | zero => intro s s' h; simp only [rampTicks, Option.some.injEq] at h; subst h; exact ⟨rfl, rfl⟩
  | succ n ih =>
    intro s s' h
    simp only [rampTicks, Option.bind_eq_some] at h
    obtain ⟨s1, h1, h2⟩ := h
    obtain ⟨a, b, -⟩ := rampTick_store s s1 h1
    obtain ⟨c, d⟩ := ih s1 s' h2
    exact ⟨c.trans a, d.trans b⟩

/-- C11: the ramp loop, however many ticks it performs, leaves the EEPROM and
the log of `EEPROM_Write` calls as they were (and so do any `n` ramp ticks);
the iteration of the outer loop then runs the deferred write on the exit
state `s1`: if the dirty flag `writeDelayValue` is set, exactly two calls are
made, address 2 with the low byte and address 3 with the high byte of the
current `delayValue`, no other address of the store changes, and the flag is
cleared; if the flag is clear the state is left unchanged. -/
theorem deferred_write_coalesced (sw : List Bool) (s s1 : State) (r : List Bool)
    (h : rampPhase sw s = some (s1, r)) :
    s1.eeprom = s.eeprom ∧ s1.eeWrites = s.eeWrites ∧
    (∀ (n : Nat) (t : State), rampTicks n s = some t →
      t.eeprom = s.eeprom ∧ t.eeWrites = s.eeWrites) ∧
    mainLoopIter sw s = some (writeBack s1, r) ∧
    (s1.writeDelayValue ≠ 0 →
      (writeBack s1).eeWrites =
        s.eeWrites ++ [(2, s1.delayValue % 256), (3, s1.delayValue / 256 % 256)] ∧
      (writeBack s1).eeprom 2 = s1.delayValue % 256 ∧
      (writeBack s1).eeprom 3 = s1.delayValue / 256 % 256 ∧
      (∀ a, a ≠ 2 → a ≠ 3 → (writeBack s1).eeprom a = s.eeprom a) ∧
      (writeBack s1).writeDelayValue = 0 ∧ (writeBack s1).delayValue = s1.delayValue) ∧
    (s1.writeDelayValue = 0 → writeBack s1 = s1) := by
  obtain ⟨h1, h2⟩ := rampPhase_store sw s s1 r h
  refine ⟨h1, h2, fun n t ht => rampTicks_store n s t ht, ?_, ?_, ?_⟩
  · simp only [mainLoopIter, h]
  · intro hd
    have hw : writeBack s1 =
        EEPROM_Write 3 (s1.delayValue >>> 8)
          (EEPROM_Write 2 s1.delayValue { s1 with writeDelayValue := 0 }) := by
      simp only [writeBack, hd, ne_eq, not_false_eq_true, if_true]
      rfl
    rw [hw]
    simp only [EEPROM_Write, h1, h2, Nat.shiftRight_eq_div_pow]
    refine ⟨?_, ?_, ?_, ?_, ?_, ?_⟩
    · simp
    · simp
    · simp
    · intro a ha2 ha3
      simp [ha2, ha3]
    · trivial
    · trivial
  · intro hd
    simp only [writeBack, hd, ne_eq, not_true_eq_false, if_false]

theorem rampPhase_reset_isSome :
    (rampPhase [false, false, true] (resetState (fun _ => 0))).isSome = true := by
  decide

/-- Witness for C11: two ticks from the reset state (speed 80 to 82,
`delayValue = 12195 = 0x2FA3`), then `SWITCH` high. -/
theorem deferred_write_coalesced_witness :
    ∃ s1, rampPhase [false, false, true] (resetState (fun _ => 0)) = some s1 ∧
      s1.1.eeWrites = [] ∧ s1.1.writeDelayValue = 1 ∧
      (writeBack s1.1).eeWrites = [(2, 163), (3, 47)] :=
  ⟨_, (Option.some_get rampPhase_reset_isSome).symm,
    (deferred_write_coalesced [false, false, true] (resetState (fun _ => 0)) _ _
      (Option.some_get rampPhase_reset_isSome).symm).2.1,
    by decide, by decide⟩

theorem interrupt_frame (s : State) :
    (interrupt s).speed = s.speed ∧ (interrupt s).delayValue = s.delayValue ∧
    (interrupt s).delayCounter = s.delayCounter ∧
    (interrupt s).stepCounterMax = s.stepCounterMax ∧
    (interrupt s).stepStart = s.stepStart ∧ (interrupt s).clock = s.clock ∧
    (interrupt s).eeprom = s.eeprom ∧ (interrupt s).eeWrites = s.eeWrites := by
  simp only [interrupt, limitCheck, aggregate, reloadAndPulse]
  split_ifs <;> exact ⟨rfl, rfl, rfl, rfl, rfl, rfl, rfl, rfl⟩

theorem writeBack_motor (s : State) :
    (writeBack s).stepCounter = s.stepCounter ∧
    (writeBack s).subStepCounter = s.subStepCounter ∧ (writeBack s).DIR = s.DIR ∧
    (writeBack s).clock = s.clock ∧ (writeBack s).stepCounterMax = s.stepCounterMax ∧
    (writeBack s).stepStart = s.stepStart := by
  simp only [writeBack, EEPROM_Write]
  split_ifs <;> exact ⟨rfl, rfl, rfl, rfl, rfl, rfl⟩

theorem rampPhase_motor (sw : List Bool) (s s' : State) (r : List Bool)
    (h : rampPhase sw s = some (s', r)) :
    s'.stepCounter = s.stepCounter ∧ s'.subStepCounter = s.subStepCounter ∧
    s'.DIR = s.DIR ∧ s'.clock = s.clock ∧ s'.stepCounterMax = s.stepCounterMax ∧
    s'.stepStart = s.stepStart :=
  rampPhase_inv
    (fun a => a.stepCounter = s.stepCounter ∧ a.subStepCounter = s.subStepCounter ∧
      a.DIR = s.DIR ∧ a.clock = s.clock ∧ a.stepCounterMax = s.stepCounterMax ∧
      a.stepStart = s.stepStart)
    (fun a b ha hab => by
      obtain ⟨-, -, -, f4, f5, f6, f7⟩ := rampTick_frame a b hab
      obtain ⟨-, -, g3, g4, -⟩ := rampTick_store a b hab
      obtain ⟨a1, a2, a3, a4, a5, a6⟩ := ha
      exact ⟨f5.trans a1, f4.trans a2, f7.trans a3, g3.trans a4, f6.trans a5, g4.trans a6⟩)
    sw s s' r ⟨rfl, rfl, rfl, rfl, rfl, rfl⟩ h

/-- C16: a firing of `interrupt` leaves `speed`, `delayValue`, `delayCounter`,
`stepCounterMax`, `stepStart` and `clock` unchanged; a ramp tick and a whole
iteration of the outer loop leave `stepCounter`, `subStepCounter`, `DIR` and
`clock` unchanged; a firing of `interrupt_low` increments `clock` by 1 modulo
`2^16` and leaves `stepCounter`, `subStepCounter`, `DIR`, `stepCounterMax`,
`stepStart`, `speed`, `delayValue` and `delayCounter` unchanged. -/
theorem single_writer_per_field (s : State) :
    ((interrupt s).speed = s.speed ∧ (interrupt s).delayValue = s.delayValue ∧
      (interrupt s).delayCounter = s.delayCounter ∧
      (interrupt s).stepCounterMax = s.stepCounterMax ∧
      (interrupt s).stepStart = s.stepStart ∧ (interrupt s).clock = s.clock) ∧
    (∀ s', rampTick s = some s' →
      s'.stepCounter = s.stepCounter ∧ s'.subStepCounter = s.subStepCounter ∧
      s'.DIR = s.DIR ∧ s'.clock = s.clock) ∧
    (∀ sw s' r, mainLoopIter sw s = some (s', r) →
      s'.stepCounter = s.stepCounter ∧ s'.subStepCounter = s.subStepCounter ∧
      s'.DIR = s.DIR ∧ s'.clock = s.clock) ∧
    ((interrupt_low s).clock = (s.clock + 1) % 2 ^ 16 ∧
      (interrupt_low s).stepCounter = s.stepCounter ∧
      (interrupt_low s).subStepCounter = s.subStepCounter ∧
      (interrupt_low s).DIR = s.DIR ∧
      (interrupt_low s).stepCounterMax = s.stepCounterMax ∧
      (interrupt_low s).stepStart = s.stepStart ∧
      (interrupt_low s).speed = s.speed ∧ (interrupt_low s).delayValue = s.delayValue ∧
      (interrupt_low s).delayCounter = s.delayCounter) := by
  refine ⟨?_, ?_, ?_, ⟨rfl, rfl, rfl, rfl, rfl, rfl, rfl, rfl, rfl⟩⟩
  · obtain ⟨a, b, c, d, e, f, -⟩ := interrupt_frame s
    exact ⟨a, b, c, d, e, f⟩
  · intro s' h
    obtain ⟨-, -, -, f4, f5, -, f7⟩ := rampTick_frame s s' h
    exact ⟨f5, f4, f7, (rampTick_store s s' h).2.2.1⟩
  · intro sw s' r h
    obtain ⟨s1, h1, rfl⟩ := mainLoopIter_some sw s s' r h
    obtain ⟨a1, a2, a3, a4, -⟩ := rampPhase_motor sw s s1 r h1
    obtain ⟨b1, b2, b3, b4, -⟩ := writeBack_motor s1
    exact ⟨b1.trans a1, b2.trans a2, b3.trans a3, b4.trans a4⟩

/-- Witness for C16: the wall clock wraps from 65535 to 0, and a ramp tick
from the reset state keeps the motor variables. -/
theorem single_writer_per_field_witness :
    (interrupt_low { resetState (fun _ => 0) with clock := 65535 }).clock = (65535 + 1) % 2 ^ 16 ∧
    ∃ s', rampTick (resetState (fun _ => 0)) = some s' ∧
      s'.stepCounter = (resetState (fun _ => 0)).stepCounter :=
  ⟨(single_writer_per_field { resetState (fun _ => 0) with clock := 65535 }).2.2.2.1,
    (rampTick (resetState (fun _ => 0))).get (by decide), (Option.some_get _).symm,
    ((single_writer_per_field (resetState (fun _ => 0))).2.1 _ (Option.some_get _).symm).1⟩

theorem reload_value (s : State) (h : s.delayCounter < 2 ^ 16) :
    (interrupt s).TMR0H = (65535 - s.delayCounter) / 256 ∧
    (interrupt s).TMR0L = (65535 - s.delayCounter) % 256 := by
  have hH : (interrupt s).TMR0H = (reloadAndPulse s).TMR0H := by
    simp only [interrupt, limitCheck, aggregate]
    split_ifs <;> rfl
  have hL : (interrupt s).TMR0L = (reloadAndPulse s).TMR0L := by
    simp only [interrupt, limitCheck, aggregate]
    split_ifs <;> rfl
  rw [hH, hL]
  simp only [reloadAndPulse, Nat.shiftRight_eq_div_pow]
  constructor <;> omega

/-- C17: for every 16-bit `delayCounter`, a firing of `interrupt` loads timer 0
with `0xFFFF - delayCounter` for the `delayCounter` of the state it fires in:
`TMR0H` is the high byte, `TMR0L` the low byte, both below 256, and
`256 * TMR0H + TMR0L + delayCounter = 65535`; two states with the same
`delayCounter` get the same reload; a larger `delayCounter` gets a strictly
smaller reload; `delayCounter = 0` gives `0xFFFF`, the largest 16-bit value. -/
theorem timer_reload (s : State) (h : s.delayCounter < 2 ^ 16) :
    timer0 (interrupt s) + s.delayCounter = 0xFFFF ∧
    (interrupt s).TMR0H = (0xFFFF - s.delayCounter) / 256 ∧
    (interrupt s).TMR0L = (0xFFFF - s.delayCounter) % 256 ∧
    (interrupt s).TMR0H < 256 ∧ (interrupt s).TMR0L < 256 ∧
    (∀ t : State, t.delayCounter = s.delayCounter →
      (interrupt t).TMR0H = (interrupt s).TMR0H ∧ (interrupt t).TMR0L = (interrupt s).TMR0L) ∧
    (∀ t : State, t.delayCounter < 2 ^ 16 → s.delayCounter < t.delayCounter →
      timer0 (interrupt t) < timer0 (interrupt s)) ∧
    (s.delayCounter = 0 → timer0 (interrupt s) = 0xFFFF ∧
      ∀ t : State, t.delayCounter < 2 ^ 16 → timer0 (interrupt t) ≤ timer0 (interrupt s)) := by
  obtain ⟨hH, hL⟩ := reload_value s h
  refine ⟨?_, hH, hL, ?_, ?_, ?_, ?_, ?_⟩
  · simp only [timer0, hH, hL]; omega
  · rw [hH]; omega
  · rw [hL]; omega
  · intro t ht
    obtain ⟨tH, tL⟩ := reload_value t (by rw [ht]; exact h)
    rw [tH, tL, hH, hL, ht]
    exact ⟨rfl, rfl⟩
  · intro t ht hlt
    obtain ⟨tH, tL⟩ := reload_value t ht
    simp only [timer0, hH, hL, tH, tL]; omega
  · intro h0
    refine ⟨by simp only [timer0, hH, hL, h0], ?_⟩
    intro t ht
    obtain ⟨tH, tL⟩ := reload_value t ht
    simp only [timer0, hH, hL, tH, tL]; omega

/-- Witness for C17: `delayCounter = 781` (speed 80) reloads `0xFCF2`. -/
theorem timer_reload_witness :
    timer0 (interrupt { resetState (fun _ => 0) with delayCounter := 781 }) + 781 = 0xFFFF ∧
    (interrupt { resetState (fun _ => 0) with delayCounter := 781 }).TMR0H = 0xFC ∧
    (interrupt { resetState (fun _ => 0) with delayCounter := 781 }).TMR0L = 0xF2 :=
  have h := timer_reload { resetState (fun _ => 0) with delayCounter := 781 } (by decide)
  ⟨h.1, h.2.1, h.2.2.1⟩

/-- C18: `setMS` drives `(MS1, MS2, MS3)` to `(0,0,0)` for 1, `(1,0,0)` for 2,
`(0,1,0)` for 4, `(1,1,0)` for 8 and `(1,1,1)` for 16; these five patterns
differ only in that 1 shares `(0,0,0)` with every input outside
`{2, 4, 8, 16}`, so the five valid inputs get pairwise distinct patterns and
every other input gets the full-step pattern. -/
theorem setMS_encoding (s : State) :
    msPattern (setMS 1 s) = (false, false, false) ∧
    msPattern (setMS 2 s) = (true, false, false) ∧
    msPattern (setMS 4 s) = (false, true, false) ∧
    msPattern (setMS 8 s) = (true, true, false) ∧
    msPattern (setMS 16 s) = (true, true, true) ∧
    (∀ a ∈ [1, 2, 4, 8, 16], ∀ b ∈ [1, 2, 4, 8, 16],
      msPattern (setMS a s) = msPattern (setMS b s) → a = b) ∧
    (∀ m : Nat, m ≠ 2 → m ≠ 4 → m ≠ 8 → m ≠ 16 →
      msPattern (setMS m s) = (false, false, false) ∧
      msPattern (setMS m s) = msPattern (setMS 1 s)) := by
  have h1 : msPattern (setMS 1 s) = (false, false, false) := by simp [msPattern, setMS]
  have h2 : msPattern (setMS 2 s) = (true, false, false) := by simp [msPattern, setMS]
  have h4 : msPattern (setMS 4 s) = (false, true, false) := by simp [msPattern, setMS]
  have h8 : msPattern (setMS 8 s) = (true, true, false) := by simp [msPattern, setMS]
  have h16 : msPattern (setMS 16 s) = (true, true, true) := by simp [msPattern, setMS]
  refine ⟨h1, h2, h4, h8, h16, ?_, ?_⟩
  · intro a ha b hb hab
    simp only [List.mem_cons, List.mem_singleton, List.not_mem_nil, or_false] at ha hb
    rcases ha with rfl | rfl | rfl | rfl | rfl <;> rcases hb with rfl | rfl | rfl | rfl | rfl <;>
      first
      | rfl
      | (simp only [h1, h2, h4, h8, h16, Prod.mk.injEq] at hab; simp at hab)
  · intro m m2 m4 m8 m16
    have : msPattern (setMS m s) = (false, false, false) := by
      simp [msPattern, setMS, m2, m4, m8, m16]
    exact ⟨this, this.trans h1.symm⟩

theorem firings_no_toggle (s : State) (hmax : s.stepCounterMax = 65535)
    (hsc : s.stepCounter < 2 ^ 16) (n : Nat) :
    (firings n s).stepCounterMax = 65535 ∧ (firings n s).stepCounter < 2 ^ 16 ∧
    (firings n s).DIR = s.DIR := by
  induction n with
  | zero => exact ⟨hmax, hsc, rfl⟩
  | succ n ih =>
    obtain ⟨h1, h2, h3⟩ := ih
    rw [firings_succ, interrupt_stepCounterMax, interrupt_stepCounter, interrupt_DIR,
      aggregate_stepCounter, h1, h3]
    refine ⟨rfl, ?_, ?_⟩
    · split_ifs <;> omega
    · split_ifs <;> first | rfl | omega

/-- C19: with `stepCounterMax = 65535` (and `stepCounter` a 16-bit value) the
comparison `stepCounter > stepCounterMax` is false after the aggregation of
every firing, so no firing changes `DIR`, neither the next one nor any of the
following; from `stepCounter = 65535` with `subStepCounter = 15` the increment
wraps `stepCounter` to 0 with `DIR` unchanged; and 65535 is what the boot load
composes from an erased store (bytes `0xFF`, `0xFF` at addresses 0 and 1). -/
theorem no_reversal_at_max_limit (s : State) (hmax : s.stepCounterMax = 65535)
    (hsc : s.stepCounter < 2 ^ 16) :
    ¬ (aggregate (reloadAndPulse s)).stepCounter > s.stepCounterMax ∧
    (interrupt s).DIR = s.DIR ∧
    (∀ n : Nat, (firings n s).DIR = s.DIR) ∧
    (s.stepCounter = 65535 → s.subStepCounter = 15 →
      (interrupt s).stepCounter = 0 ∧ (interrupt s).subStepCounter = 0 ∧
      (interrupt s).DIR = s.DIR) ∧
    (∀ ee : Nat → Nat, ee 0 % 256 = 0xFF → ee 1 % 256 = 0xFF →
      (loadConfig (initPins (resetState ee))).stepCounterMax = 65535) := by
  have hagg : ¬ (aggregate (reloadAndPulse s)).stepCounter > s.stepCounterMax := by
    rw [aggregate_stepCounter, hmax]; split_ifs <;> omega
  have hdir : (interrupt s).DIR = s.DIR := by
    rw [interrupt_DIR, if_neg hagg]
  refine ⟨hagg, hdir, fun n => (firings_no_toggle s hmax hsc n).2.2, ?_, ?_⟩
  · intro h1 h2
    refine ⟨?_, ?_, hdir⟩
    · rw [interrupt_stepCounter, if_neg hagg, aggregate_stepCounter, h1, h2]; rfl
    · rw [interrupt_subStepCounter, h2]; rfl
  · intro ee h0 h1
    have : (loadConfig (initPins (resetState ee))).stepCounterMax =
        (ee 0 % 256 + ((ee 1 % 256) <<< 8)) % 2 ^ 16 := rfl
    rw [this, h0, h1]
    rfl

/-- Witness for C19: `stepCounter = 65535`, `subStepCounter = 15`. -/
theorem no_reversal_at_max_limit_witness :
    (interrupt { resetState (fun _ => 0) with
        stepCounterMax := 65535, stepCounter := 65535, subStepCounter := 15 }).stepCounter = 0 ∧
    (interrupt { resetState (fun _ => 0) with
        stepCounterMax := 65535, stepCounter := 65535, subStepCounter := 15 }).DIR
      = (resetState (fun _ => 0)).DIR :=
  have h := (no_reversal_at_max_limit { resetState (fun _ => 0) with
      stepCounterMax := 65535, stepCounter := 65535, subStepCounter := 15 } rfl (by decide)).2.2.2.1
      rfl rfl
  ⟨h.1, h.2.2⟩

theorem waitSwitch_run (rest : List Bool) :
    ∀ a : Nat, waitSwitch (List.replicate a false ++ true :: rest) = some rest := by
  intro a
  induction a with
  | zero => rfl
  | succ a ih => simpa [List.replicate, waitSwitch] using ih

theorem waitSwitch_lows : ∀ a : Nat, waitSwitch (List.replicate a false) = none := by
  intro a
  induction a with
  | zero => rfl
  | succ a ih => simpa [List.replicate, waitSwitch] using ih

theorem measureLoop_run (rest : List Bool) :
    ∀ (m : Nat) (s : State), s.stepCounter + m < 2 ^ 16 →
      ∃ t, measureLoop (List.replicate m true ++ false :: rest) s = some (t, rest) ∧
        t.stepCounter = s.stepCounter + m ∧ t.stepPulses = s.stepPulses + m ∧
        storeView t = storeView s ∧ bootView t = bootView s := by
  intro m
  induction m with
  | zero => intro s _; exact ⟨s, rfl, rfl, rfl, rfl, rfl⟩
  | succ m ih =>
    intro s hs
    have hmod : (s.stepCounter + 1) % 2 ^ 16 = s.stepCounter + 1 := Nat.mod_eq_of_lt (by omega)
    obtain ⟨t, h1, h2, h3, h4, h5⟩ :=
      ih (stepping 50 { s with stepCounter := (s.stepCounter + 1) % 2 ^ 16 })
        (by show (s.stepCounter + 1) % 2 ^ 16 + m < 2 ^ 16; rw [hmod]; omega)
    refine ⟨t, ?_, ?_, ?_, h4.trans rfl, h5.trans rfl⟩
    · simp only [List.replicate, List.cons_append, measureLoop]; exact h1
    · rw [h2]; show (s.stepCounter + 1) % 2 ^ 16 + m = _; rw [hmod]; omega
    · rw [h3]; show s.stepPulses + 1 + m = _; omega

theorem measureLoop_lows_none :
    ∀ (m : Nat) (s : State), measureLoop (List.replicate m true) s = none := by
  intro m
  induction m with
  | zero => intro s; rfl
  | succ m ih => intro s; simp only [List.replicate, measureLoop]; exact ih _

theorem measureLoop_frame :
    ∀ (sw : List Bool) (s t : State) (r : List Bool),
      measureLoop sw s = some (t, r) → s.stepCounter < 2 ^ 16 →
      t.stepCounter < 2 ^ 16 ∧ storeView t = storeView s := by
  intro sw
  induction sw with
  | nil => intro s t r h; simp [measureLoop] at h
  | cons b sw ih =>
    intro s t r h hs
    cases b with
    | false =>
      simp only [measureLoop, Option.some.injEq, Prod.mk.injEq] at h
      rw [← h.1]; exact ⟨hs, rfl⟩
    | true =>
      simp only [measureLoop] at h
      obtain ⟨h1, h2⟩ := ih _ t r h (Nat.mod_lt _ (by norm_num))
      exact ⟨h1, h2.trans rfl⟩

theorem homingLoop_run :
    ∀ (fuel : Nat) (s : State), s.stepCounter ≤ s.stepStart → s.stepStart < 2 ^ 16 →
      s.stepStart - s.stepCounter < fuel →
      ∃ t, homingLoop fuel s = some t ∧
        t.stepPulses = s.stepPulses + (s.stepStart - s.stepCounter) ∧
        t.stepCounter = (s.stepStart + 1) % 2 ^ 16 ∧
        storeView t = storeView s ∧ bootView t = bootView s ∧
        msPattern t = msPattern s ∧ t.TMR0ON = s.TMR0ON := by
  intro fuel
  induction fuel with
  | zero => intro s _ _ h; omega
  | succ fuel ih =>
    intro s hle hlt hfuel
    by_cases hc : s.stepCounter < s.stepStart
    · have hmod : (s.stepCounter + 1) % 2 ^ 16 = s.stepCounter + 1 :=
        Nat.mod_eq_of_lt (by omega)
      obtain ⟨t, h1, h2, h3, h4, h5, h6, h7⟩ :=
        ih (stepping 40 { s with stepCounter := (s.stepCounter + 1) % 2 ^ 16 })
          (by show (s.stepCounter + 1) % 2 ^ 16 ≤ s.stepStart; rw [hmod]; omega)
          hlt
          (by show s.stepStart - (s.stepCounter + 1) % 2 ^ 16 < fuel; rw [hmod]; omega)
      refine ⟨t, ?_, ?_, h3, h4.trans rfl, h5.trans rfl, h6.trans rfl, h7.trans rfl⟩
      · simp only [homingLoop, if_pos hc]; exact h1
      · rw [h2]
        show s.stepPulses + 1 + (s.stepStart - (s.stepCounter + 1) % 2 ^ 16) = _
        rw [hmod]; omega
    · have heq : s.stepCounter = s.stepStart := by omega
      refine ⟨{ s with stepCounter := (s.stepCounter + 1) % 2 ^ 16 }, ?_, ?_, ?_,
        rfl, rfl, rfl, rfl⟩
      · simp only [homingLoop, if_neg hc]
      · show s.stepPulses = _; omega
      · show (s.stepCounter + 1) % 2 ^ 16 = _; rw [heq]

theorem setMS_storeView (m : Nat) (s : State) :
    storeView (setMS m s) = storeView s ∧ (setMS m s).stepCounter = s.stepCounter ∧
    (setMS m s).stepPulses = s.stepPulses ∧ (setMS m s).TMR0ON = s.TMR0ON := by
  simp only [setMS, storeView]
  split_ifs <;> exact ⟨rfl, rfl, rfl, rfl⟩

theorem homing_run (s : State) (hsc : s.stepCounter = 0) (hst : s.stepStart < 2 ^ 16) :
    ∃ s3 t, homingLoop (2 ^ 16 + 1) { s with N_RST := true } = some s3 ∧
      s3.stepPulses = s.stepPulses + s.stepStart ∧ s3.GIE = s.GIE ∧
      homing s = some t ∧
      t = { setMS STEP_DIVISOR { s3 with stepCounter := 0 } with GIE := true, TMR0ON := true } ∧
      t.stepPulses = s.stepPulses + s.stepStart ∧ t.stepCounter = 0 ∧
      msPattern t = (true, true, true) ∧ t.GIE = true ∧ t.TMR0ON = true ∧
      t.eeprom = s.eeprom ∧ t.eeWrites = s.eeWrites ∧ t.stepStart = s.stepStart ∧
      t.stepCounterMax = s.stepCounterMax ∧ bootView t = bootView s := by
  obtain ⟨s3, h1, h2, -, h4, h5, -, -⟩ :=
    homingLoop_run (2 ^ 16 + 1) { s with N_RST := true }
      (by show s.stepCounter ≤ s.stepStart; omega) hst
      (by show s.stepStart - s.stepCounter < 2 ^ 16 + 1; omega)
  have h2' : s3.stepPulses = s.stepPulses + s.stepStart := by
    rw [h2]; show s.stepPulses + (s.stepStart - s.stepCounter) = _; rw [hsc]; rfl
  have hv : storeView s3 = storeView s := h4.trans rfl
  have hb : bootView s3 = bootView s := h5.trans rfl
  simp only [storeView, Prod.mk.injEq] at hv
  obtain ⟨v1, v2, v3, v4, v5⟩ := hv
  have hhom : homing s =
      some { setMS STEP_DIVISOR { s3 with stepCounter := 0 } with GIE := true, TMR0ON := true } := by
    simp only [homing]
    rw [h1]
  obtain ⟨m1, m2, m3, -⟩ := setMS_storeView STEP_DIVISOR { s3 with stepCounter := 0 }
  simp only [storeView, Prod.mk.injEq] at m1
  have mb := setMS_bootView STEP_DIVISOR { s3 with stepCounter := 0 }
  refine ⟨s3, _, h1, h2', v5, hhom, rfl, ?_, m2, ?_, rfl, rfl, ?_, ?_, ?_, ?_, ?_⟩
  · exact m3.trans h2'
  · simp [msPattern, setMS, STEP_DIVISOR]
  · exact m1.1.trans v1
  · exact m1.2.1.trans v2
  · exact m1.2.2.1.trans v3
  · exact m1.2.2.2.1.trans v4
  · exact (mb.trans rfl).trans hb

theorem calibrate_run (a m b n c : Nat) (rest : List Bool) (s : State)
    (hm : m < 2 ^ 16) (hn : n < 2 ^ 16) :
    ∃ t, calibrate (calibrationSamples a m b n c rest) s = some (t, rest) ∧
      t.stepStart = m ∧ t.stepCounterMax = n ∧ t.stepCounter = 0 ∧
      t.eeWrites = s.eeWrites ++ [(4, m % 256), (5, m / 256), (0, n % 256), (1, n / 256)] ∧
      t.eeprom = (fun x => if x = 1 then n / 256 else if x = 0 then n % 256
        else if x = 5 then m / 256 else if x = 4 then m % 256 else s.eeprom x) ∧
      t.stepPulses = s.stepPulses + m + n ∧ bootView t = bootView s ∧ t.GIE = s.GIE := by
  obtain ⟨t1, h1, c1, p1, v1, b1⟩ :=
    measureLoop_run (List.replicate b false ++ true :: (List.replicate n true ++ false ::
      (List.replicate c false ++ true :: rest))) m (setMS 1 { s with stepCounter := 0 })
      (by rw [(setMS_storeView 1 _).2.1]; show 0 + m < 2 ^ 16; omega)
  obtain ⟨t2, h2, c2, p2, v2, b2⟩ :=
    measureLoop_run (List.replicate c false ++ true :: rest) n
      { EEPROM_Write 5 (t1.stepCounter >>> 8)
          (EEPROM_Write 4 t1.stepCounter { t1 with stepStart := t1.stepCounter })
        with stepCounter := 0 }
      (by show 0 + n < 2 ^ 16; omega)
  have hcal : calibrate (calibrationSamples a m b n c rest) s =
      some (EEPROM_Write 1 (t2.stepCounter >>> 8)
        (EEPROM_Write 0 t2.stepCounter
          { t2 with stepCounterMax := t2.stepCounter, stepCounter := 0 }), rest) := by
    simp only [calibrate, calibrationSamples, waitSwitch_run, h1]
    simp only [EEPROM_Write] at h2 ⊢
    rw [h2]
    simp only [waitSwitch_run]
  obtain ⟨m1, m2, m3, -⟩ := setMS_storeView 1 { s with stepCounter := 0 }
  have mb := setMS_bootView 1 { s with stepCounter := 0 }
  rw [m2] at c1
  rw [m3] at p1
  have c1' : t1.stepCounter = m := by rw [c1]; show 0 + m = m; omega
  have c2' : t2.stepCounter = n := by rw [c2]; show 0 + n = n; omega
  have p1' : t1.stepPulses = s.stepPulses + m := p1
  have p2' : t2.stepPulses = s.stepPulses + m + n := by rw [p2]; show t1.stepPulses + n = _; rw [p1']
  have v1' : storeView t1 = storeView s := v1.trans m1
  simp only [storeView, Prod.mk.injEq] at v1' v2
  simp only [EEPROM_Write] at v2
  obtain ⟨e1, w1, -, x1, g1⟩ := v1'
  obtain ⟨e2, w2, s2, x2, g2⟩ := v2
  have hd1 : m >>> 8 % 256 = m / 256 := by rw [Nat.shiftRight_eq_div_pow]; omega
  have hd2 : n >>> 8 % 256 = n / 256 := by rw [Nat.shiftRight_eq_div_pow]; omega
  refine ⟨_, hcal, ?_, ?_, rfl, ?_, ?_, ?_, ?_, ?_⟩
  · show t2.stepStart = m
    rw [s2, c1']
  · show t2.stepCounter = n
    exact c2'
  · show (t2.eeWrites ++ [(0, t2.stepCounter % 256)]) ++ [(1, t2.stepCounter >>> 8 % 256)] = _
    rw [w2, w1, c1', c2', hd1, hd2]
    simp
  · show (fun x => if x = 1 then t2.stepCounter >>> 8 % 256
        else (if x = 0 then t2.stepCounter % 256 else t2.eeprom x)) = _
    rw [e2, e1, c1', c2', hd1, hd2]
  · exact p2'
  · exact ((b2.trans rfl).trans (b1.trans mb)).trans rfl
  · show t2.GIE = s.GIE
    rw [g2, g1]

theorem calibrate_blocked (a m b n c : Nat) (s : State) :
    calibrate (List.replicate a false ++ true :: (List.replicate m true ++ false ::
      (List.replicate b false ++ true :: (List.replicate n true ++ false ::
        List.replicate c false)))) s = none := by
  have key : ∀ (k : Nat) (u : State) (tl : List Bool),
      ∃ t, measureLoop (List.replicate k true ++ false :: tl) u = some (t, tl) := by
    intro k
    induction k with
    | zero => intro u tl; exact ⟨u, rfl⟩
    | succ k ih =>
      intro u tl
      obtain ⟨t, ht⟩ := ih (stepping 50 { u with stepCounter := (u.stepCounter + 1) % 2 ^ 16 }) tl
      exact ⟨t, by simp only [List.replicate, List.cons_append, measureLoop]; exact ht⟩
  obtain ⟨t1, h1⟩ := key m (setMS 1 { s with stepCounter := 0 })
    (List.replicate b false ++ true :: (List.replicate n true ++ false :: List.replicate c false))
  obtain ⟨t2, h2⟩ := key n
    { EEPROM_Write 5 (t1.stepCounter >>> 8)
        (EEPROM_Write 4 t1.stepCounter { t1 with stepStart := t1.stepCounter })
      with stepCounter := 0 }
    (List.replicate c false)
  simp only [calibrate, waitSwitch_run, h1]
  simp only [EEPROM_Write] at h2 ⊢
  rw [h2]
  simp only [waitSwitch_lows]

theorem loadConfig_fields (ee : Nat → Nat) :
    (loadConfig (initPins (resetState ee))).stepCounterMax = ee 0 % 256 + 256 * (ee 1 % 256) ∧
    (loadConfig (initPins (resetState ee))).delayValue = ee 2 % 256 + 256 * (ee 3 % 256) ∧
    (loadConfig (initPins (resetState ee))).stepStart = ee 4 % 256 + 256 * (ee 5 % 256) ∧
    (loadConfig (initPins (resetState ee))).delayCounter =
      (ee 2 % 256 + 256 * (ee 3 % 256)) / STEP_DIVISOR ∧
    (loadConfig (initPins (resetState ee))).stepCounter = 0 ∧
    (loadConfig (initPins (resetState ee))).GIE = false ∧
    (loadConfig (initPins (resetState ee))).eeprom = ee ∧
    (loadConfig (initPins (resetState ee))).eeWrites = [] ∧
    (loadConfig (initPins (resetState ee))).stepPulses = 0 := by
  have h1 : (loadConfig (initPins (resetState ee))).stepCounterMax =
      (ee 0 % 256 + ((ee 1 % 256) <<< 8)) % 2 ^ 16 := rfl
  have h2 : (loadConfig (initPins (resetState ee))).delayValue =
      (ee 2 % 256 + ((ee 3 % 256) <<< 8)) % 2 ^ 16 := rfl
  have h3 : (loadConfig (initPins (resetState ee))).stepStart =
      (ee 4 % 256 + ((ee 5 % 256) <<< 8)) % 2 ^ 16 := rfl
  have h4 : (loadConfig (initPins (resetState ee))).delayCounter =
      (ee 2 % 256 + ((ee 3 % 256) <<< 8)) % 2 ^ 16 / STEP_DIVISOR := rfl
  rw [h1, h2, h3, h4]
  simp only [Nat.shiftLeft_eq]
  refine ⟨by omega, by omega, by omega, ?_, rfl, rfl, rfl, rfl, rfl⟩
  congr 1
  omega

/-- C12: for `m, n < 2^16`, a calibration whose first stepping loop iterates
`m` times and whose second iterates `n` times (whatever the lengths `a`, `b`,
`c` of the three waits) completes with `stepStart = m`, `stepCounterMax = n`
and `stepCounter = 0`; it has made exactly four `EEPROM_Write` calls, in this
order: low and high byte of `m` to addresses 4 and 5, low and high byte of
`n` to addresses 0 and 1; every other address of the store, 2 and 3 among
them, is unchanged; and the boot load applied to the resulting store gives
back `stepStart = m` and `stepCounterMax = n`. -/
theorem calibration_round_trip (a m b n c : Nat) (rest : List Bool) (s : State)
    (hm : m < 2 ^ 16) (hn : n < 2 ^ 16) :
    ∃ t, calibration (false :: calibrationSamples a m b n c rest) s = some (t, rest) ∧
      t.stepStart = m ∧ t.stepCounterMax = n ∧ t.stepCounter = 0 ∧
      t.eeWrites = s.eeWrites ++ [(4, m % 256), (5, m / 256), (0, n % 256), (1, n / 256)] ∧
      t.eeprom 4 = m % 256 ∧ t.eeprom 5 = m / 256 ∧
      t.eeprom 0 = n % 256 ∧ t.eeprom 1 = n / 256 ∧
      (∀ x, x ≠ 0 → x ≠ 1 → x ≠ 4 → x ≠ 5 → t.eeprom x = s.eeprom x) ∧
      (loadConfig (initPins (resetState t.eeprom))).stepStart = m ∧
      (loadConfig (initPins (resetState t.eeprom))).stepCounterMax = n := by
  obtain ⟨t, h1, h2, h3, h4, h5, h6, -⟩ := calibrate_run a m b n c rest s hm hn
  obtain ⟨l1, -, l3, -⟩ := loadConfig_fields t.eeprom
  refine ⟨t, h1, h2, h3, h4, h5, ?_, ?_, ?_, ?_, ?_, ?_, ?_⟩
  · rw [h6]; rfl
  · rw [h6]; rfl
  · rw [h6]; rfl
  · rw [h6]; rfl
  · intro x x0 x1 x4 x5
    rw [h6]; simp only [x0, x1, x4, x5, if_false]
  · rw [l3, h6]; simp only [if_true]
    show m % 256 % 256 + 256 * (m / 256 % 256) = m
    omega
  · rw [l1, h6]; simp only [if_true]
    show n % 256 % 256 + 256 * (n / 256 % 256) = n
    omega

/-- Witness for C12: 120 steps of offset and 900 steps of range. -/
theorem calibration_round_trip_witness :
    ∃ t, calibration (false :: calibrationSamples 1 120 2 900 0 []) (resetState (fun _ => 0))
        = some (t, []) ∧
      t.stepStart = 120 ∧ t.stepCounterMax = 900 ∧
      t.eeWrites = [] ++ [(4, 120 % 256), (5, 120 / 256), (0, 900 % 256), (1, 900 / 256)] ∧
      (loadConfig (initPins (resetState t.eeprom))).stepStart = 120 ∧
      (loadConfig (initPins (resetState t.eeprom))).stepCounterMax = 900 :=
  match calibration_round_trip 1 120 2 900 0 [] (resetState (fun _ => 0))
      (by decide) (by decide) with
  | ⟨t, h1, h2, h3, _, h5, _, _, _, _, _, h11, h12⟩ => ⟨t, h1, h2, h3, h5, h11, h12⟩

/-- C13: for every store content the boot load gives
`stepCounterMax = byte 0 + 256 * byte 1`, `delayValue = byte 2 + 256 * byte 3`,
`stepStart = byte 4 + 256 * byte 5` and `delayCounter = delayValue / 16`; and
when `SWITCH` reads high at reset (no calibration) boot completes, reads no
further sample, makes no `EEPROM_Write` call, leaves the store as it was, and
enters the main loop with these loaded values. -/
theorem boot_load_layout (ee : Nat → Nat) :
    (loadConfig (initPins (resetState ee))).stepCounterMax = ee 0 % 256 + 256 * (ee 1 % 256) ∧
    (loadConfig (initPins (resetState ee))).delayValue = ee 2 % 256 + 256 * (ee 3 % 256) ∧
    (loadConfig (initPins (resetState ee))).stepStart = ee 4 % 256 + 256 * (ee 5 % 256) ∧
    (loadConfig (initPins (resetState ee))).delayCounter =
      (loadConfig (initPins (resetState ee))).delayValue / STEP_DIVISOR ∧
    ∀ sw : List Bool, ∃ s0, boot ee (true :: sw) = some (s0, sw) ∧
      s0.eeWrites = [] ∧ s0.eeprom = ee ∧
      s0.stepCounterMax = ee 0 % 256 + 256 * (ee 1 % 256) ∧
      s0.stepStart = ee 4 % 256 + 256 * (ee 5 % 256) ∧
      s0.delayValue = ee 2 % 256 + 256 * (ee 3 % 256) ∧
      s0.delayCounter = s0.delayValue / STEP_DIVISOR := by
  obtain ⟨l1, l2, l3, l4, l5, -, l7, l8, -⟩ := loadConfig_fields ee
  refine ⟨l1, l2, l3, by rw [l4, l2], ?_⟩
  intro sw
  obtain ⟨s3, t, -, -, -, ht, -, -, -, -, -, -, t1, t2, t3, t4, t5⟩ :=
    homing_run (loadConfig (initPins (resetState ee))) l5 (by rw [l3]; omega)
  simp only [bootView, Prod.mk.injEq] at t5
  refine ⟨t, ?_, t2.trans l8, t1.trans l7, t4.trans l1, t3.trans l3, t5.2.2.2.2.2.1.trans l2, ?_⟩
  · simp only [boot, calibration, ht]
  · rw [t5.2.2.2.2.2.2.1, t5.2.2.2.2.2.1, l4, l2]

theorem calibration_exit (sw : List Bool) (s t : State) (r : List Bool)
    (h : calibration sw s = some (t, r)) (hsc : s.stepCounter = 0)
    (hst : s.stepStart < 2 ^ 16) :
    t.stepCounter = 0 ∧ t.stepStart < 2 ^ 16 ∧ t.GIE = s.GIE := by
  cases sw with
  | nil => simp [calibration] at h
  | cons b sw =>
    cases b with
    | true =>
      simp only [calibration, Option.some.injEq, Prod.mk.injEq] at h
      rw [← h.1]; exact ⟨hsc, hst, rfl⟩
    | false =>
      simp only [calibration] at h
      unfold calibrate at h
      simp only at h
      split at h
      · exact absurd h (by simp)
      · split at h
        · exact absurd h (by simp)
        · rename_i s2 sw2 hm1
          split at h
          · exact absurd h (by simp)
          · split at h
            · exact absurd h (by simp)
            · rename_i s7 sw4 hm2
              split at h
              · exact absurd h (by simp)
              · simp only [Option.some.injEq, Prod.mk.injEq] at h
                obtain ⟨a1, a2⟩ := measureLoop_frame _ _ _ _ hm1
                  (by rw [(setMS_storeView 1 _).2.1]; show (0 : Nat) < 2 ^ 16; norm_num)
                obtain ⟨b1, b2⟩ := measureLoop_frame _ _ _ _ hm2
                  (by show (0 : Nat) < 2 ^ 16; norm_num)
                have a3 := a2.trans (setMS_storeView 1 { s with stepCounter := 0 }).1
                simp only [storeView, Prod.mk.injEq] at a3 b2
                simp only [EEPROM_Write] at b2
                rw [← h.1]
                refine ⟨rfl, ?_, ?_⟩
                · show s7.stepStart < 2 ^ 16
                  rw [b2.2.2.1]; exact a1
                · show s7.GIE = s.GIE
                  rw [b2.2.2.2.2, a3.2.2.2.2]

/-- C15, counterexample: after the second stepping loop has ended on a low
sample (the 7th), the final wait reads two more lows and completes only on the
next high, which it consumes (one sample is left); and when `SWITCH` stays low
the calibration does not complete. -/
theorem final_wait_needs_high :
    (calibration [false, true, true, false, true, true, false, false, false, true, true]
        (resetState (fun _ => 0))).map Prod.snd = some [true] ∧
    (calibration [false, true, true, false, true, true, false, false, false]
        (resetState (fun _ => 0))).isSome = false := by
  decide

theorem measureLoop_exit :
    ∀ (k : Nat) (u : State) (tl : List Bool),
      ∃ t, measureLoop (List.replicate k true ++ false :: tl) u = some (t, tl) ∧
        t.stepPulses = u.stepPulses + k := by
  intro k
  induction k with
  | zero => intro u tl; exact ⟨u, rfl, rfl⟩
  | succ k ih =>
    intro u tl
    obtain ⟨t, ht, hp⟩ :=
      ih (stepping 50 { u with stepCounter := (u.stepCounter + 1) % 2 ^ 16 }) tl
    refine ⟨t, by simp only [List.replicate, List.cons_append, measureLoop]; exact ht, ?_⟩
    rw [hp]; show u.stepPulses + 1 + k = _; omega

theorem calibrate_completes (a m b n c : Nat) (rest : List Bool) (s : State) :
    ∃ t, calibrate (calibrationSamples a m b n c rest) s = some (t, rest) := by
  obtain ⟨t1, h1, -⟩ := measureLoop_exit m (setMS 1 { s with stepCounter := 0 })
    (List.replicate b false ++ true :: (List.replicate n true ++ false ::
      (List.replicate c false ++ true :: rest)))
  obtain ⟨t2, h2, -⟩ := measureLoop_exit n
    { EEPROM_Write 5 (t1.stepCounter >>> 8)
        (EEPROM_Write 4 t1.stepCounter { t1 with stepStart := t1.stepCounter })
      with stepCounter := 0 }
    (List.replicate c false ++ true :: rest)
  refine ⟨EEPROM_Write 1 (t2.stepCounter >>> 8)
    (EEPROM_Write 0 t2.stepCounter
      { t2 with stepCounterMax := t2.stepCounter, stepCounter := 0 }), ?_⟩
  simp only [calibrate, calibrationSamples, waitSwitch_run, h1]
  simp only [EEPROM_Write] at h2 ⊢
  rw [h2]
  simp only [waitSwitch_run]

/-- C15, amended: each stepping loop of the calibration runs while `SWITCH`
reads high, once per high sample, and exits on the first low sample; each of
the three waits, the final one included, is `while (!SWITCH);`: it reads
through the low samples and completes on the first high one, never while the
input stays low.  So a calibration completes exactly at the high sample that
follows the second stepping loop, after `c` further lows, and does not
complete when only lows follow. -/
theorem calibration_waits_for_high (a m b n c : Nat) (rest : List Bool) (s : State) :
    (∀ (k : Nat) (u : State) (tl : List Bool),
      ∃ t, measureLoop (List.replicate k true ++ false :: tl) u = some (t, tl) ∧
        t.stepPulses = u.stepPulses + k) ∧
    (∀ (k : Nat) (u : State), measureLoop (List.replicate k true) u = none) ∧
    waitSwitch (List.replicate c false ++ true :: rest) = some rest ∧
    waitSwitch (List.replicate c false) = none ∧
    (∃ t, calibration (false :: calibrationSamples a m b n c rest) s = some (t, rest)) ∧
    calibration (false :: (List.replicate a false ++ true :: (List.replicate m true ++ false ::
      (List.replicate b false ++ true :: (List.replicate n true ++ false ::
        List.replicate c false))))) s = none :=
  ⟨measureLoop_exit, measureLoop_lows_none, waitSwitch_run rest c, waitSwitch_lows c,
    calibrate_completes a m b n c rest s, calibrate_blocked a m b n c s⟩

theorem rampTick_CounterOk (s s' : State) (h : rampTick s = some s') : CounterOk s' := by
  unfold rampTick at h
  simp only at h
  split at h
  · exact absurd h (by simp)
  · cases h; rfl

theorem CounterOk_of_rampView (s t : State) (h : rampView t = rampView s) (hs : CounterOk s) :
    CounterOk t := by
  simp only [rampView, Prod.mk.injEq] at h
  obtain ⟨-, h2, h3, -⟩ := h
  simp only [CounterOk] at hs ⊢
  rw [h2, h3]; exact hs

theorem apply_CounterOk (e : Event) (s s' : State) (hs : CounterOk s)
    (h : e.apply s = some s') : CounterOk s' := by
  cases e with
  | pulse =>
    simp only [Event.apply, Option.some.injEq] at h
    rw [← h]; exact CounterOk_of_rampView _ _ (interrupt_rampView s) hs
  | wallClock =>
    simp only [Event.apply, Option.some.injEq] at h
    rw [← h]; exact CounterOk_of_rampView _ _ (interrupt_low_rampView s) hs
  | tick => exact rampTick_CounterOk s s' h
  | flush =>
    simp only [Event.apply, Option.some.injEq] at h
    rw [← h]; exact CounterOk_of_rampView _ _ (writeBack_rampView s) hs
  | iteration sw =>
    obtain ⟨s1, r, h1, rfl⟩ := apply_iteration sw s s' h
    exact CounterOk_of_rampView _ _ (writeBack_rampView s1)
      (rampPhase_inv CounterOk (fun a b _ hab => rampTick_CounterOk a b hab) sw s s1 r hs h1)

theorem apply_noTick (e : Event) (s s' : State) (ht : e.ticks = false)
    (h : e.apply s = some s') : rampView s' = rampView s := by
  cases e with
  | pulse =>
    simp only [Event.apply, Option.some.injEq] at h
    rw [← h]; exact interrupt_rampView s
  | wallClock =>
    simp only [Event.apply, Option.some.injEq] at h
    rw [← h]; exact interrupt_low_rampView s
  | tick => simp [Event.ticks] at ht
  | flush =>
    simp only [Event.apply, Option.some.injEq] at h
    rw [← h]; exact writeBack_rampView s
  | iteration sw =>
    obtain ⟨s1, r, h1, rfl⟩ := apply_iteration sw s s' h
    refine (writeBack_rampView s1).trans ?_
    cases sw with
    | nil =>
      rw [rampPhase_nil] at h1
      split_ifs at h1
      simp only [Option.some.injEq, Prod.mk.injEq] at h1
      rw [← h1.1]
    | cons b sw =>
      cases b with
      | false => simp [Event.ticks] at ht
      | true =>
        rw [rampPhase_high] at h1
        split_ifs at h1 <;>
          (simp only [Option.some.injEq, Prod.mk.injEq] at h1; rw [← h1.1])

theorem run_noTick :
    ∀ (evs : List Event) (s s' : State), (∀ e ∈ evs, e.ticks = false) →
      run evs s = some s' → rampView s' = rampView s := by
  intro evs
  induction evs with
  | nil => intro s s' _ h; simp only [run, Option.some.injEq] at h; rw [← h]
  | cons e es ih =>
    intro s s' ht h
    simp only [run, Option.bind_eq_some] at h
    obtain ⟨s1, h1, h2⟩ := h
    have a := apply_noTick e s s1 (ht e (List.mem_cons_self _ _)) h1
    have b := ih s1 s' (fun x hx => ht x (List.mem_cons_of_mem _ hx)) h2
    exact b.trans a

theorem timer0_interrupt (s : State) (h : s.delayCounter < 2 ^ 16) :
    timer0 (interrupt s) + s.delayCounter = 65535 := by
  obtain ⟨hH, hL⟩ := reload_value s h
  simp only [timer0, hH, hL]; omega

/-- C20: in every state reached from boot by a run that performs a ramp tick,
`2500 ≤ delayValue ≤ 20000` and `156 ≤ delayCounter ≤ 1250`, and the next
firing of `interrupt` reloads timer 0 with a value in `[64285, 65379]`; a
reachable state with `delayCounter = 0` has seen no ramp tick and still holds
the `delayValue` loaded at boot, which is below 16; and at boot
`delayCounter = 0` exactly when the stored `delayValue` is below 16. -/
theorem ramp_delay_bounds (ee : Nat → Nat) (sw : List Bool) (s0 : State)
    (r : List Bool) (evs : List Event) (s : State)
    (hb : boot ee sw = some (s0, r)) (hr : run evs s0 = some s) :
    ((∃ e ∈ evs, e.ticks = true) →
      2500 ≤ s.delayValue ∧ s.delayValue ≤ 20000 ∧
      156 ≤ s.delayCounter ∧ s.delayCounter ≤ 1250 ∧
      64285 ≤ timer0 (interrupt s) ∧ timer0 (interrupt s) ≤ 65379) ∧
    (s.delayCounter = 0 →
      (∀ e ∈ evs, e.ticks = false) ∧
      s.delayValue = ee 2 % 256 + 256 * (ee 3 % 256) ∧
      ee 2 % 256 + 256 * (ee 3 % 256) < 16) ∧
    (s0.delayCounter = 0 ↔ ee 2 % 256 + 256 * (ee 3 % 256) < 16) := by
  obtain ⟨-, -, -, -, b5, b6, -⟩ := boot_spec ee sw s0 r hb
  have hdv0 : s0.delayValue = ee 2 % 256 + 256 * (ee 3 % 256) := by
    rw [b5, Nat.shiftLeft_eq]; omega
  have hc0 : CounterOk s0 := b6
  have hok0 := boot_RampOk ee sw s0 r hb
  have hok : RampOk s := run_inv RampOk apply_RampOk evs s0 s hok0 hr
  have hc : CounterOk s := run_inv CounterOk apply_CounterOk evs s0 s hc0 hr
  simp only [CounterOk, STEP_DIVISOR] at hc hc0
  have part1 : (∃ e ∈ evs, e.ticks = true) →
      2500 ≤ s.delayValue ∧ s.delayValue ≤ 20000 ∧
      156 ≤ s.delayCounter ∧ s.delayCounter ≤ 1250 ∧
      64285 ≤ timer0 (interrupt s) ∧ timer0 (interrupt s) ≤ 65379 := by
    intro ht
    have hd : s.delayValue = 1000000 / s.speed := run_ticks_DelayOk evs s0 s hok0 hr ht
    obtain ⟨⟨hlo, hhi⟩, -⟩ := hok
    simp only [MIN_SPEED, MAX_SPEED] at hlo hhi
    have h1 : 2500 ≤ s.delayValue := by
      rw [hd, Nat.le_div_iff_mul_le (by omega)]; omega
    have h2 : s.delayValue ≤ 20000 := by
      rw [hd]
      calc 1000000 / s.speed ≤ 1000000 / 50 := Nat.div_le_div_left hlo (by norm_num)
        _ = 20000 := by norm_num
    have h3 := timer0_interrupt s (by omega)
    refine ⟨h1, h2, by omega, by omega, by omega, by omega⟩
  refine ⟨part1, ?_, ?_⟩
  · intro hz
    have hnt : ∀ e ∈ evs, e.ticks = false := by
      intro e he
      cases hte : e.ticks with
      | false => rfl
      | true =>
        have := part1 ⟨e, he, hte⟩
        omega
    have hv := run_noTick evs s0 s hnt hr
    simp only [rampView, Prod.mk.injEq] at hv
    refine ⟨hnt, hv.2.1.trans hdv0, ?_⟩
    rw [← hdv0, ← hv.2.1]
    omega
  · rw [hc0, hdv0]
    omega

/-- Witness for C20: a run after a boot without calibration whose second
event is a ramp tick. -/
theorem ramp_delay_bounds_witness :
    ∃ s, run [Event.pulse, Event.tick, Event.iteration [false, true], Event.wallClock]
        bootedBlank = some s ∧ 2500 ≤ s.delayValue ∧ s.delayValue ≤ 20000 ∧
      156 ≤ s.delayCounter ∧ s.delayCounter ≤ 1250 :=
  have h := (ramp_delay_bounds (fun _ => 0) [true] bootedBlank [] _ _ boot_blank
      (Option.some_get run_blank_isSome).symm).1 ⟨Event.tick, by simp, rfl⟩
  ⟨_, (Option.some_get run_blank_isSome).symm, h.1, h.2.1, h.2.2.1, h.2.2.2.1⟩

theorem homingPasses_frame :
    ∀ (j : Nat) (s : State),
      msPattern (homingPasses j s) = msPattern s ∧ (homingPasses j s).GIE = s.GIE ∧
      (homingPasses j s).stepPulses = s.stepPulses + j ∧
      (homingPasses j s).stepStart = s.stepStart := by
  intro j
  induction j with
  | zero => intro s; exact ⟨rfl, rfl, rfl, rfl⟩
  | succ j ih =>
    intro s
    obtain ⟨h1, h2, h3, h4⟩ :=
      ih (stepping 40 { s with stepCounter := (s.stepCounter + 1) % 2 ^ 16 })
    refine ⟨h1.trans rfl, h2.trans rfl, ?_, h4.trans rfl⟩
    show (homingPasses j _).stepPulses = _
    rw [h3]; show s.stepPulses + 1 + j = _; omega

theorem homingLoop_passes :
    ∀ (fuel : Nat) (s : State), s.stepCounter ≤ s.stepStart → s.stepStart < 2 ^ 16 →
      s.stepStart - s.stepCounter < fuel →
      homingLoop fuel s =
        some { homingPasses (s.stepStart - s.stepCounter) s with
          stepCounter := ((homingPasses (s.stepStart - s.stepCounter) s).stepCounter + 1)
            % 2 ^ 16 } := by
  intro fuel
  induction fuel with
  | zero => intro s _ _ h; omega
  | succ fuel ih =>
    intro s hle hlt hfuel
    by_cases hc : s.stepCounter < s.stepStart
    · have hmod : (s.stepCounter + 1) % 2 ^ 16 = s.stepCounter + 1 :=
        Nat.mod_eq_of_lt (by omega)
      have hih := ih (stepping 40 { s with stepCounter := (s.stepCounter + 1) % 2 ^ 16 })
          (by show (s.stepCounter + 1) % 2 ^ 16 ≤ s.stepStart; rw [hmod]; omega)
          hlt
          (by show s.stepStart - (s.stepCounter + 1) % 2 ^ 16 < fuel; rw [hmod]; omega)
      have hn : (stepping 40 { s with stepCounter := (s.stepCounter + 1) % 2 ^ 16 }).stepStart
          - (stepping 40 { s with stepCounter := (s.stepCounter + 1) % 2 ^ 16 }).stepCounter
          = s.stepStart - s.stepCounter - 1 := by
        show s.stepStart - (s.stepCounter + 1) % 2 ^ 16 = _
        rw [hmod]; omega
      rw [hn] at hih
      obtain ⟨d, hd⟩ : ∃ d, s.stepStart - s.stepCounter = d + 1 :=
        ⟨s.stepStart - s.stepCounter - 1, by omega⟩
      rw [hd] at hih ⊢
      simp only [Nat.add_sub_cancel] at hih
      simp only [homingLoop, if_pos hc, homingPasses]
      exact hih
    · have heq : s.stepStart - s.stepCounter = 0 := by omega
      rw [heq]
      simp only [homingLoop, if_neg hc, homingPasses]

theorem measureLoop_msPattern :
    ∀ (sw : List Bool) (s t : State) (r : List Bool),
      measureLoop sw s = some (t, r) → msPattern t = msPattern s := by
  intro sw
  induction sw with
  | nil => intro s t r h; simp [measureLoop] at h
  | cons b sw ih =>
    intro s t r h
    cases b with
    | false =>
      simp only [measureLoop, Option.some.injEq, Prod.mk.injEq] at h
      rw [← h.1]
    | true =>
      simp only [measureLoop] at h
      exact (ih _ t r h).trans rfl

theorem setMS_one (s : State) : msPattern (setMS 1 s) = (false, false, false) := by
  simp [msPattern, setMS]

theorem calibration_msPattern (ee : Nat → Nat) (sw : List Bool) (t : State) (r : List Bool)
    (h : calibration sw (loadConfig (initPins (resetState ee))) = some (t, r)) :
    msPattern t = (false, false, false) := by
  cases sw with
  | nil => simp [calibration] at h
  | cons b sw =>
    cases b with
    | true =>
      simp only [calibration, Option.some.injEq, Prod.mk.injEq] at h
      rw [← h.1]
      show msPattern (setMS 1 { resetState ee with N_EN := false }) = _
      exact setMS_one _
    | false =>
      simp only [calibration] at h
      unfold calibrate at h
      simp only at h
      split at h
      · exact absurd h (by simp)
      · split at h
        · exact absurd h (by simp)
        · rename_i s2 sw2 hm1
          split at h
          · exact absurd h (by simp)
          · split at h
            · exact absurd h (by simp)
            · rename_i s7 sw4 hm2
              split at h
              · exact absurd h (by simp)
              · simp only [Option.some.injEq, Prod.mk.injEq] at h
                have a1 := measureLoop_msPattern _ _ _ _ hm1
                have a2 := measureLoop_msPattern _ _ _ _ hm2
                rw [← h.1]
                show msPattern s7 = _
                rw [a2]
                show msPattern s2 = _
                rw [a1]
                exact setMS_one _

/-- C14: on both boot paths (`SWITCH` high at reset, or a calibration, for any
store content and any samples) the state that reaches the homing move has
`stepCounter = 0`, a 16-bit `stepStart`, the global interrupt enable off and
the microstep lines at the full-step pattern `(0,0,0)`.  From any state with
`stepCounter = 0` and a 16-bit `stepStart` (0 and 65535 included) the homing
loop terminates within its bound: its exit state is the state after exactly
`stepStart` passes of the loop body, each pass emits one pulse, and every
pass leaves the microstep lines and the interrupt enable as they were at loop
entry, so on the boot paths all `stepStart` pulses are full-step pulses with
interrupts off.  `homing` then resets `stepCounter` to 0, selects 16
microsteps `(1,1,1)` and only then sets the interrupt enable and starts
timer 0. -/
theorem homing_move (ee : Nat → Nat) (sw : List Bool) (s : State) (r : List Bool)
    (hc : calibration sw (loadConfig (initPins (resetState ee))) = some (s, r)) :
    (s.stepCounter = 0 ∧ s.stepStart < 2 ^ 16 ∧ s.GIE = false ∧
      msPattern s = (false, false, false)) ∧
    (∃ t, boot ee sw = some (t, r) ∧ homing s = some t ∧
      (∀ j : Nat, j ≤ s.stepStart →
        msPattern (homingPasses j { s with N_RST := true }) = (false, false, false) ∧
        (homingPasses j { s with N_RST := true }).GIE = false ∧
        (homingPasses j { s with N_RST := true }).stepPulses = s.stepPulses + j) ∧
      t.stepPulses = s.stepPulses + s.stepStart ∧ t.stepCounter = 0 ∧
      msPattern t = (true, true, true) ∧ t.GIE = true ∧ t.TMR0ON = true) ∧
    (∀ u : State, u.stepCounter = 0 → u.stepStart < 2 ^ 16 →
      ∃ u3 t, homingLoop (2 ^ 16 + 1) { u with N_RST := true } = some u3 ∧
        u3 = { homingPasses u.stepStart { u with N_RST := true } with
          stepCounter :=
            ((homingPasses u.stepStart { u with N_RST := true }).stepCounter + 1) % 2 ^ 16 } ∧
        (∀ j : Nat,
          msPattern (homingPasses j { u with N_RST := true }) = msPattern u ∧
          (homingPasses j { u with N_RST := true }).GIE = u.GIE ∧
          (homingPasses j { u with N_RST := true }).stepPulses = u.stepPulses + j) ∧
        u3.stepPulses = u.stepPulses + u.stepStart ∧ u3.GIE = u.GIE ∧
        msPattern u3 = msPattern u ∧
        homing u = some t ∧
        t = { setMS STEP_DIVISOR { u3 with stepCounter := 0 } with
              GIE := true, TMR0ON := true } ∧
        t.stepPulses = u.stepPulses + u.stepStart ∧ t.stepCounter = 0 ∧
        msPattern t = (true, true, true) ∧ t.GIE = true ∧ t.TMR0ON = true) := by
  obtain ⟨-, -, l3, -, l5, l6, -⟩ := loadConfig_fields ee
  obtain ⟨e1, e2, e3⟩ := calibration_exit sw _ s r hc l5 (by rw [l3]; omega)
  have e4 := calibration_msPattern ee sw s r hc
  have e3' : s.GIE = false := e3.trans l6
  refine ⟨⟨e1, e2, e3', e4⟩, ?_, ?_⟩
  · obtain ⟨s3, t, -, -, -, ht, -, p, c, m, g, o, -⟩ := homing_run s e1 e2
    refine ⟨t, by simp only [boot, hc, ht], ht, ?_, p, c, m, g, o⟩
    intro j _
    obtain ⟨f1, f2, f3, -⟩ := homingPasses_frame j { s with N_RST := true }
    exact ⟨f1.trans e4, f2.trans e3', f3⟩
  · intro u hu1 hu2
    obtain ⟨u3, t, a1, a2, a3, a4, a5, a6, a7, a8, a9, a10, -⟩ := homing_run u hu1 hu2
    have hp := homingLoop_passes (2 ^ 16 + 1) { u with N_RST := true }
      (by show u.stepCounter ≤ u.stepStart; omega) hu2
      (by show u.stepStart - u.stepCounter < 2 ^ 16 + 1; omega)
    have hn : ({ u with N_RST := true } : State).stepStart
        - ({ u with N_RST := true } : State).stepCounter = u.stepStart := by
      show u.stepStart - u.stepCounter = u.stepStart
      rw [hu1]; rfl
    rw [hn] at hp
    have hu3 : u3 = { homingPasses u.stepStart { u with N_RST := true } with
          stepCounter :=
            ((homingPasses u.stepStart { u with N_RST := true }).stepCounter + 1) % 2 ^ 16 } :=
      Option.some.inj (a1.symm.trans hp)
    have hms : msPattern u3 = msPattern u := by
      rw [hu3]
      exact (homingPasses_frame u.stepStart { u with N_RST := true }).1
    refine ⟨u3, t, a1, hu3, ?_, a2, a3, hms, a4, a5, a6, a7, a8, a9, a10⟩
    intro j
    obtain ⟨f1, f2, f3, -⟩ := homingPasses_frame j { u with N_RST := true }
    exact ⟨f1, f2, f3⟩

/-- Witness for C14: `stepStart = 65535` loaded from the store, no
calibration. -/
theorem homing_move_witness :
    msPattern (loadConfig (initPins (resetState (fun a => if a = 4 ∨ a = 5 then 255 else 0))))
      = (false, false, false) ∧
    ∃ t, boot (fun a => if a = 4 ∨ a = 5 then 255 else 0) [true] = some (t, []) ∧
      t.stepPulses =
        (loadConfig (initPins (resetState (fun a => if a = 4 ∨ a = 5 then 255 else 0)))).stepPulses
        + (loadConfig (initPins (resetState (fun a => if a = 4 ∨ a = 5 then 255 else 0)))).stepStart
      ∧ t.stepCounter = 0 ∧ msPattern t = (true, true, true) ∧ t.GIE = true :=
  have h := homing_move (fun a => if a = 4 ∨ a = 5 then 255 else 0) [true] _ [] rfl
  ⟨h.1.2.2.2,
    match h.2.1 with
    | ⟨t, h1, _, _, h3, h4, h5, h6, _⟩ => ⟨t, h1, h3, h4, h5, h6⟩⟩

theorem rampTick_statements (s : State) :
    rampTick s = (stmt217 (stmt214 (stmt213 s))).map (fun t => stmt219 (stmt218 t)) := by
  have hsp : (stmt214 (stmt213 s)).speed = nextSpeed s.speed s.stepIncrement := by
    simp only [stmt214, stmt213, nextSpeed]
    split_ifs <;> rfl
  simp only [rampTick, stmt217, hsp]
  cases calculateDelay (nextSpeed s.speed s.stepIncrement) with
  | none => rfl
  | some d =>
    simp only [Option.map_some']
    congr 1
    simp only [stmt214, stmt213, nextSpeed, stmt218, stmt219]
    split_ifs <;> rfl

set_option maxRecDepth 100000 in
theorem quotients_differ :
    ∀ p : Nat, p < 401 → 50 ≤ p → 1000000 / p ≠ 1000000 / (p + 1) := by
  decide

theorem FineOk_of_rampView (pc : Pc) (s t : State) (h : rampView t = rampView s)
    (hs : FineOk pc s) : FineOk pc t := by
  simp only [rampView, Prod.mk.injEq] at h
  obtain ⟨h1, -, -, h4, -⟩ := h
  cases pc <;> (simp only [FineOk] at hs ⊢; rw [h1, h4]; exact hs)

theorem FineDelay_of_rampView (pc : Pc) (s t : State) (h : rampView t = rampView s)
    (hs : FineDelay pc s) : FineDelay pc t := by
  simp only [rampView, Prod.mk.injEq] at h
  obtain ⟨h1, h2, -⟩ := h
  cases pc <;> (simp only [FineDelay] at hs ⊢; rw [h1, h2]; exact hs)

theorem stmt217_spec (s : State) (hlo : 50 ≤ s.speed) (hhi : s.speed ≤ 400) :
    stmt217 s = some { s with delayValue := 1000000 / s.speed } := by
  simp only [stmt217, calculateDelay_of_ge s.speed (by omega) (by omega)]

theorem fineStep_ok (e : FineEvent) (pc pc' : Pc) (s s' : State) (hs : FineOk pc s)
    (h : fineStep e (pc, s) = some (pc', s')) :
    FineOk pc' s' ∧ (FineDelay pc s → FineDelay pc' s') ∧
    (e = FineEvent.main → pc = Pc.l217 → FineDelay pc' s') := by
  cases e with
  | pulse =>
    simp only [fineStep, Option.some.injEq, Prod.mk.injEq] at h
    obtain ⟨rfl, rfl⟩ := h
    exact ⟨FineOk_of_rampView _ _ _ (interrupt_rampView s) hs,
      FineDelay_of_rampView _ _ _ (interrupt_rampView s), fun h => absurd h (by simp)⟩
  | wallClock =>
    simp only [fineStep, Option.some.injEq, Prod.mk.injEq] at h
    obtain ⟨rfl, rfl⟩ := h
    exact ⟨FineOk_of_rampView _ _ _ (interrupt_low_rampView s) hs,
      FineDelay_of_rampView _ _ _ (interrupt_low_rampView s), fun h => absurd h (by simp)⟩
  | flush =>
    cases pc with
    | l213 =>
      simp only [fineStep, Option.some.injEq, Prod.mk.injEq] at h
      obtain ⟨rfl, rfl⟩ := h
      exact ⟨FineOk_of_rampView _ _ _ (writeBack_rampView s) hs,
        FineDelay_of_rampView _ _ _ (writeBack_rampView s), fun h => absurd h (by simp)⟩
    | l214 => simp [fineStep] at h
    | l217 => simp [fineStep] at h
    | l218 => simp [fineStep] at h
    | l219 => simp [fineStep] at h
  | main =>
    cases pc with
    | l213 =>
      simp only [fineStep, Option.some.injEq, Prod.mk.injEq] at h
      obtain ⟨rfl, rfl⟩ := h
      simp only [FineOk] at hs
      obtain ⟨hinc, hlo, hhi⟩ := hs
      have hsp : (stmt213 s).speed = s.speed + 1 := by
        show (((s.speed : Int) + s.stepIncrement) % 2 ^ 16).toNat = _
        rw [hinc]; omega
      refine ⟨?_, ?_, fun _ h => absurd h (by simp)⟩
      · simp only [FineOk]
        exact ⟨hinc, by rw [hsp]; omega, by rw [hsp]; omega⟩
      · intro hd
        simp only [FineDelay] at hd ⊢
        rw [hsp]
        exact hd
    | l214 =>
      simp only [fineStep, Option.some.injEq, Prod.mk.injEq] at h
      obtain ⟨rfl, rfl⟩ := h
      simp only [FineOk] at hs
      obtain ⟨hinc, hlo, hhi⟩ := hs
      refine ⟨?_, ?_, fun _ h => absurd h (by simp)⟩
      · simp only [FineOk, stmt214, MAX_SPEED, MIN_SPEED]
        split_ifs with hgt
        · exact ⟨hinc, by simp, by simp⟩
        · exact ⟨hinc, by omega, by omega⟩
      · intro hd
        simp only [FineDelay, stmt214, MAX_SPEED, MIN_SPEED] at hd ⊢
        split_ifs with hgt h50 h50
        · have : s.speed = 401 := by omega
          rw [hd, this]
        · exact absurd rfl h50
        · omega
        · exact hd
    | l217 =>
      simp only [FineOk] at hs
      obtain ⟨hinc, hlo, hhi⟩ := hs
      simp only [fineStep, stmt217_spec s hlo hhi, Option.map_some', Option.some.injEq,
        Prod.mk.injEq] at h
      obtain ⟨rfl, rfl⟩ := h
      exact ⟨⟨hinc, hlo, hhi⟩, fun _ => rfl, fun _ _ => rfl⟩
    | l218 =>
      simp only [fineStep, Option.some.injEq, Prod.mk.injEq] at h
      obtain ⟨rfl, rfl⟩ := h
      exact ⟨hs, fun hd => hd, fun _ h => absurd h (by simp)⟩
    | l219 =>
      simp only [fineStep, Option.some.injEq, Prod.mk.injEq] at h
      obtain ⟨rfl, rfl⟩ := h
      exact ⟨hs, fun hd => hd, fun _ h => absurd h (by simp)⟩

theorem fineRun_keeps :
    ∀ (evs : List FineEvent) (pc pc' : Pc) (s s' : State), FineOk pc s → FineDelay pc s →
      fineRun evs (pc, s) = some (pc', s') → FineOk pc' s' ∧ FineDelay pc' s' := by
  intro evs
  induction evs with
  | nil =>
    intro pc pc' s s' h1 h2 h
    simp only [fineRun, Option.some.injEq, Prod.mk.injEq] at h
    obtain ⟨rfl, rfl⟩ := h
    exact ⟨h1, h2⟩
  | cons e es ih =>
    intro pc pc' s s' h1 h2 h
    simp only [fineRun, Option.bind_eq_some] at h
    obtain ⟨⟨pc1, s1⟩, ha, hb⟩ := h
    obtain ⟨k1, k2, -⟩ := fineStep_ok e pc pc1 s s1 h1 ha
    exact ih pc1 pc' s1 s' k1 (k2 h2) hb

theorem fineRun_ok :
    ∀ (evs : List FineEvent) (pc pc' : Pc) (s s' : State), FineOk pc s →
      fineRun evs (pc, s) = some (pc', s') → FineOk pc' s' := by
  intro evs
  induction evs with
  | nil =>
    intro pc pc' s s' h1 h
    simp only [fineRun, Option.some.injEq, Prod.mk.injEq] at h
    obtain ⟨rfl, rfl⟩ := h
    exact h1
  | cons e es ih =>
    intro pc pc' s s' h1 h
    simp only [fineRun, Option.bind_eq_some] at h
    obtain ⟨⟨pc1, s1⟩, ha, hb⟩ := h
    exact ih pc1 pc' s1 s' (fineStep_ok e pc pc1 s s1 h1 ha).1 hb

theorem fineStep_main_pc (pc pc' : Pc) (s s' : State)
    (h : fineStep FineEvent.main (pc, s) = some (pc', s')) (hpc : pc ≠ Pc.l217) :
    untilDelay pc = untilDelay pc' + 1 := by
  cases pc with
  | l217 => exact absurd rfl hpc
  | l213 =>
    simp only [fineStep, Option.some.injEq, Prod.mk.injEq] at h
    rw [← h.1]; rfl
  | l214 =>
    simp only [fineStep, Option.some.injEq, Prod.mk.injEq] at h
    rw [← h.1]; rfl
  | l218 =>
    simp only [fineStep, Option.some.injEq, Prod.mk.injEq] at h
    rw [← h.1]; rfl
  | l219 =>
    simp only [fineStep, Option.some.injEq, Prod.mk.injEq] at h
    rw [← h.1]; rfl

theorem fineStep_other_pc (e : FineEvent) (pc pc' : Pc) (s s' : State)
    (h : fineStep e (pc, s) = some (pc', s')) (he : e ≠ FineEvent.main) : pc' = pc := by
  cases e with
  | main => exact absurd rfl he
  | pulse =>
    simp only [fineStep, Option.some.injEq, Prod.mk.injEq] at h
    exact h.1.symm
  | wallClock =>
    simp only [fineStep, Option.some.injEq, Prod.mk.injEq] at h
    exact h.1.symm
  | flush =>
    cases pc with
    | l213 =>
      simp only [fineStep, Option.some.injEq, Prod.mk.injEq] at h
      exact h.1.symm
    | l214 => simp [fineStep] at h
    | l217 => simp [fineStep] at h
    | l218 => simp [fineStep] at h
    | l219 => simp [fineStep] at h

theorem fineRun_derives :
    ∀ (evs : List FineEvent) (pc pc' : Pc) (s s' : State), FineOk pc s →
      untilDelay pc ≤ mainCount evs →
      fineRun evs (pc, s) = some (pc', s') → FineDelay pc' s' := by
  intro evs
  induction evs with
  | nil =>
    intro pc pc' s s' _ hc _
    cases pc <;> simp [untilDelay, mainCount] at hc
  | cons e es ih =>
    intro pc pc' s s' h1 hc h
    simp only [fineRun, Option.bind_eq_some] at h
    obtain ⟨⟨pc1, s1⟩, ha, hb⟩ := h
    obtain ⟨k1, -, k3⟩ := fineStep_ok e pc pc1 s s1 h1 ha
    cases e with
    | main =>
      simp only [mainCount] at hc
      by_cases hpc : pc = Pc.l217
      · exact (fineRun_keeps es pc1 pc' s1 s' k1 (k3 rfl hpc) hb).2
      · have := fineStep_main_pc pc pc1 s s1 ha hpc
        exact ih pc1 pc' s1 s' k1 (by omega) hb
    | pulse =>
      have := fineStep_other_pc _ pc pc1 s s1 ha (by simp)
      simp only [mainCount] at hc
      exact ih pc1 pc' s1 s' k1 (by rw [this]; exact hc) hb
    | wallClock =>
      have := fineStep_other_pc _ pc pc1 s s1 ha (by simp)
      simp only [mainCount] at hc
      exact ih pc1 pc' s1 s' k1 (by rw [this]; exact hc) hb
    | flush =>
      have := fineStep_other_pc _ pc pc1 s s1 ha (by simp)
      simp only [mainCount] at hc
      exact ih pc1 pc' s1 s' k1 (by rw [this]; exact hc) hb

theorem fineRun_tick (u : State) :
    fineRun [FineEvent.main, FineEvent.main, FineEvent.main, FineEvent.main, FineEvent.main]
        (Pc.l213, u) = (rampTick u).map (fun t => (Pc.l213, t)) := by
  rw [rampTick_statements]
  simp only [fineRun, fineStep, Option.some_bind]
  cases stmt217 (stmt214 (stmt213 u)) with
  | none => rfl
  | some t => rfl

theorem fineRun_before :
    ∀ (evs : List FineEvent) (pc pc' : Pc) (s s' : State),
      mainCount evs < untilDelay pc → untilDelay pc ≤ 3 →
      fineRun evs (pc, s) = some (pc', s') → s'.delayValue = s.delayValue := by
  intro evs
  induction evs with
  | nil =>
    intro pc pc' s s' _ _ h
    simp only [fineRun, Option.some.injEq, Prod.mk.injEq] at h
    rw [← h.2]
  | cons e es ih =>
    intro pc pc' s s' hc h3 h
    simp only [fineRun, Option.bind_eq_some] at h
    obtain ⟨⟨pc1, s1⟩, ha, hb⟩ := h
    cases e with
    | main =>
      simp only [mainCount] at hc
      cases pc with
      | l213 =>
        simp only [fineStep, Option.some.injEq, Prod.mk.injEq] at ha
        obtain ⟨rfl, rfl⟩ := ha
        exact (ih _ pc' _ s' (by simp only [untilDelay] at hc ⊢; omega)
          (by simp [untilDelay]) hb).trans rfl
      | l214 =>
        simp only [fineStep, Option.some.injEq, Prod.mk.injEq] at ha
        obtain ⟨rfl, rfl⟩ := ha
        refine (ih _ pc' _ s' (by simp only [untilDelay] at hc ⊢; omega)
          (by simp [untilDelay]) hb).trans ?_
        simp only [stmt214]; split_ifs <;> rfl
      | l217 => simp only [untilDelay] at hc; omega
      | l218 => simp [untilDelay] at h3
      | l219 => simp [untilDelay] at h3
    | pulse =>
      simp only [mainCount] at hc
      simp only [fineStep, Option.some.injEq, Prod.mk.injEq] at ha
      obtain ⟨rfl, rfl⟩ := ha
      exact (ih _ pc' _ s' hc h3 hb).trans (interrupt_frame s).2.1
    | wallClock =>
      simp only [mainCount] at hc
      simp only [fineStep, Option.some.injEq, Prod.mk.injEq] at ha
      obtain ⟨rfl, rfl⟩ := ha
      exact (ih _ pc' _ s' hc h3 hb).trans rfl
    | flush =>
      simp only [mainCount] at hc
      have hpc := fineStep_other_pc _ pc pc1 s s1 ha (by simp)
      subst hpc
      cases pc1 with
      | l213 =>
        simp only [fineStep, Option.some.injEq, Prod.mk.injEq] at ha
        have hw := writeBack_rampView s
        simp only [rampView, Prod.mk.injEq] at hw
        rw [← ha.2] at hb
        exact (ih _ pc' _ s' hc h3 hb).trans hw.2.1
      | l214 => simp [fineStep] at ha
      | l217 => simp [fineStep] at ha
      | l218 => simp [fineStep] at ha
      | l219 => simp [fineStep] at ha

/-- C9, amended: when `main` enters its loop, `speed = 80` and `delayValue`
is the 16-bit little-endian value of EEPROM bytes 2 and 3, whatever they hold,
and it stays so until line 217 runs for the first time.  From then on, with
interrupts firing between any two statements of the main program:
`delayValue = 1000000 / speed` holds whenever the main program stands outside
the window between the speed update (line 213) and the next delay update
(line 217), that is at line 213, 218 or 219; inside that window, where the
15 ms delay is spent, `delayValue` is still the quotient for the speed before
line 213 and differs from `1000000 / speed`.  Five consecutive statements of
the main program from line 213 are one ramp tick. -/
theorem delay_derived_outside_update (ee : Nat → Nat) (sw : List Bool) (s0 : State)
    (r : List Bool) (evs : List FineEvent) (pc : Pc) (s : State)
    (hb : boot ee sw = some (s0, r)) (hr : fineRun evs (Pc.l213, s0) = some (pc, s)) :
    s0.speed = 80 ∧ s0.delayValue = ee 2 % 256 + 256 * (ee 3 % 256) ∧
    (mainCount evs < 3 → s.delayValue = s0.delayValue) ∧
    (3 ≤ mainCount evs →
      (pc = Pc.l213 ∨ pc = Pc.l218 ∨ pc = Pc.l219 → s.delayValue = 1000000 / s.speed) ∧
      (pc = Pc.l214 →
        s.delayValue = 1000000 / (s.speed - 1) ∧ s.delayValue ≠ 1000000 / s.speed) ∧
      (pc = Pc.l217 →
        s.delayValue = 1000000 / (if s.speed = MIN_SPEED then MAX_SPEED else s.speed - 1) ∧
        s.delayValue ≠ 1000000 / s.speed)) ∧
    (∀ u : State,
      fineRun [FineEvent.main, FineEvent.main, FineEvent.main, FineEvent.main, FineEvent.main]
        (Pc.l213, u) = (rampTick u).map (fun t => (Pc.l213, t))) := by
  obtain ⟨b1, ⟨binc, -, -⟩, -, -, b5, -⟩ := boot_spec ee sw s0 r hb
  have hdv0 : s0.delayValue = ee 2 % 256 + 256 * (ee 3 % 256) := by
    rw [b5, Nat.shiftLeft_eq]; omega
  have hok0 : FineOk Pc.l213 s0 := by
    simp only [FineOk]; exact ⟨binc, by omega, by omega⟩
  refine ⟨b1, hdv0, ?_, ?_, fineRun_tick⟩
  · intro hc
    exact fineRun_before evs Pc.l213 pc s0 s hc (le_refl 3) hr
  · intro hc
    have hd := fineRun_derives evs Pc.l213 pc s0 s hok0 hc hr
    have hok := fineRun_ok evs Pc.l213 pc s0 s hok0 hr
    refine ⟨?_, ?_, ?_⟩
    · rintro (rfl | rfl | rfl) <;> exact hd
    · rintro rfl
      simp only [FineDelay] at hd
      simp only [FineOk] at hok
      refine ⟨hd, ?_⟩
      rw [hd]
      have := quotients_differ (s.speed - 1) (by omega) (by omega)
      have h1 : s.speed - 1 + 1 = s.speed := by omega
      rw [h1] at this
      exact this
    · rintro rfl
      simp only [FineDelay] at hd
      simp only [FineOk] at hok
      refine ⟨hd, ?_⟩
      rw [hd]
      simp only [MIN_SPEED, MAX_SPEED]
      split_ifs with h50
      · rw [h50]; decide
      · have := quotients_differ (s.speed - 1) (by omega) (by omega)
        have h1 : s.speed - 1 + 1 = s.speed := by omega
        rw [h1] at this
        exact this

theorem fineRun_blank_isSome :
    (fineRun [FineEvent.main, FineEvent.main, FineEvent.main, FineEvent.pulse, FineEvent.main,
      FineEvent.main, FineEvent.main, FineEvent.pulse] (Pc.l213, bootedBlank)).isSome = true := by
  decide

/-- Witness for C9 (amended): after a boot without calibration, the second
pass of the ramp loop has run line 213 (speed 82) and an interrupt fires
before line 217: `delayValue` is still `1000000 / 81 = 12345`, not
`1000000 / 82 = 12195`. -/
theorem delay_derived_outside_update_witness :
    ∃ s, fineRun [FineEvent.main, FineEvent.main, FineEvent.main, FineEvent.pulse,
        FineEvent.main, FineEvent.main, FineEvent.main, FineEvent.pulse]
        (Pc.l213, bootedBlank) = some (Pc.l214, s) ∧
      s.speed = 82 ∧ s.delayValue = 12345 ∧
      s.delayValue = 1000000 / (s.speed - 1) ∧ s.delayValue ≠ 1000000 / s.speed :=
  have h := (delay_derived_outside_update (fun _ => 0) [true] bootedBlank []
      [FineEvent.main, FineEvent.main, FineEvent.main, FineEvent.pulse,
        FineEvent.main, FineEvent.main, FineEvent.main, FineEvent.pulse]
      Pc.l214 _ boot_blank (Option.some_get fineRun_blank_isSome).symm).2.2.2.1
      (by decide)
  ⟨_, (Option.some_get fineRun_blank_isSome).symm, by decide, by decide,
    (h.2.1 rfl).1, (h.2.1 rfl).2⟩

end StepMotor
